import Mathlib

/-!
Verification development for the dependency resolution and fetch engine of
the `got` vendoring tool.  The Go source is shallowly embedded: pure string
functions are translated directly, stateful or effectful code (the resolver,
the fetch engine, the filtered copy) is embedded as explicit state passing
or as a small-step machine, and external collaborators (the XML tokenizer,
the JSON decoder, the VCS driver, the filesystem) appear as oracle inputs at
the boundary where the repository code consumes them.
-/

namespace Got


/-! ## String helpers (models of Go`s strings / path/filepath functions) -/

/-- ASCII lower-casing of a single character, as done by `strings.ToLower`
for the ASCII range (the inputs in this code base are ASCII). -/
def lowerChar (c : Char) : Char :=
  if 'A' ≤ c ∧ c ≤ 'Z' then Char.ofNat (c.toNat + 32) else c

/-- Model of Go `strings.ToLower` (ASCII fragment). -/
def strToLower (s : String) : String := ⟨s.data.map lowerChar⟩

/-- Model of Go `strings.EqualFold` (ASCII fragment): equality after
case folding. -/
def strEqualFold (a b : String) : Bool :=
  decide (a.data.map lowerChar = b.data.map lowerChar)

/-- Model of Go `strings.HasPrefix s pre`: raw character-wise test. -/
def isPfxOf (pre s : String) : Bool := decide (pre.data <+: s.data)

/-- Model of Go `strings.HasSuffix s suf`: raw character-wise test. -/
def isSfxOf (suf s : String) : Bool := decide (suf.data <:+ s.data)

/-- Model of Go `strings.Contains s sub`. -/
def containsSub (s sub : String) : Bool :=
  (s.data.tails).any (fun t => sub.data.isPrefixOf t)

/-- The suffix of `cs` starting at its final dot, if any
(helper for `filepathExt`). -/
def extFrom : List Char → Option (List Char)
  | [] => none
  | c :: cs =>
    match extFrom cs with
    | some e => some e
    | none => if c = '.' then some (c :: cs) else none

/-- Model of Go `filepath.Ext` for slash-free base names: the suffix
beginning at the final dot, or the empty string when there is no dot. -/
def filepathExt (s : String) : String :=
  match extFrom s.data with
  | some e => ⟨e⟩
  | none => ""

/-! ## Filtered copy classification (`goget.go`: ignoreDir / ignoreFile) -/

/-- `ignoreDir` from goget.go: directories named testdata or vendor, or
starting with a dot or an underscore, are skipped with their subtree. -/
def ignoreDir (dirname : String) : Bool :=
  if dirname = "testdata" ∨ dirname = "vendor" then true
  else if isPfxOf "." dirname then true
  else isPfxOf "_" dirname

/-- `versionFiles` from goget.go. -/
def versionFiles : List String := ["godeps.json", "glide.yaml"]

/-- `licenseFilePrefix` from goget.go. -/
def licenseFilePrefix : List String :=
  ["licence", "license", "copying", "unlicense", "copyright", "copyleft"]

/-- `legalFileSubstring` from goget.go. -/
def legalFileSubstring : List String :=
  ["legal", "notice", "disclaimer", "patent", "third-party", "thirdparty"]

/-- `isLegalFile` from goget.go: lowercased base name starts with a license
prefix or contains a legal substring.  (The argument is already a base
name, so `filepath.Base` is the identity here.) -/
def isLegalFile (path : String) : Bool :=
  (licenseFilePrefix.any (fun p => isPfxOf p (strToLower path))) ||
  (legalFileSubstring.any (fun sub => containsSub (strToLower path) sub))

/-- `ignoreFile` from goget.go: manifest names are always kept, `.s`/`.c`
always kept, `.go` kept unless a test file, anything else kept only when it
is a legal/licensing file. -/
def ignoreFile (filename : String) : Bool :=
  if versionFiles.any (fun name => strEqualFold filename name) then false
  else if filepathExt filename = ".s" ∨ filepathExt filename = ".c" then false
  else if filepathExt filename = ".go" then isSfxOf "_test.go" filename
  else !isLegalFile filename

/-- The file-inclusion predicate exactly as the claim states it (spec
wording): manifest name, or `.s`/`.c` extension, or non-test `.go`, or a
legal/licensing base name — with the legal clause unconditional. -/
def includeFileClaim (name : String) : Bool :=
  (versionFiles.any (fun v => strEqualFold name v)) ||
  (filepathExt name = ".s" || filepathExt name = ".c") ||
  (filepathExt name = ".go" && !isSfxOf "_test.go" name) ||
  isLegalFile name

/-- The file-inclusion predicate amended to match the code: the
legal/licensing clause applies only to files whose extension is none of
`.s`, `.c`, `.go` (a `.go` test file named like a license is excluded). -/
def includeFileAmended (name : String) : Bool :=
  (versionFiles.any (fun v => strEqualFold name v)) ||
  (filepathExt name = ".s" || filepathExt name = ".c") ||
  (filepathExt name = ".go" && !isSfxOf "_test.go" name) ||
  (!(filepathExt name = ".s") && !(filepathExt name = ".c") &&
   !(filepathExt name = ".go") && isLegalFile name)

/-! ## Filtered copy walk (goget.go: copyDir over an abstract tree)

`filepath.Walk` and the file IO are external collaborators; the walk is
embedded as structural recursion over a directory tree, and the destination
filesystem as an association list from created path to contents
(`none` marks a directory, `some data` a file).  `os.Mkdir` and the
`O_CREATE|O_EXCL` open both fail when the target path already exists, and a
failing step aborts the walk, leaving the entries created so far. -/

inductive FsEntry where
  | file (name : String) (data : String)
  | dir (name : String) (children : List FsEntry)

def FsEntry.name : FsEntry → String
  | .file n _ => n
  | .dir n _ => n

abbrev Dest := List (String × Option String)

def destLookup (d : Dest) (p : String) : Option (Option String) :=
  (d.find? (fun e => e.1 = p)).map (fun e => e.2)

mutual

/-- One walk visit of `copyDir` from goget.go: ignored directories are
skipped with their whole subtree (`filepath.SkipDir`), other directories
are created with `os.Mkdir` (fails if present), ignored files are skipped,
other files are opened with `O_CREATE|O_EXCL` (fails if present). -/
def copyEntry (target : String) (dest : Dest) (e : FsEntry) :
    Dest × Option String :=
  match e with
  | .file name data =>
    if ignoreFile name then (dest, none)
    else if (destLookup dest target).isSome then
      (dest, some ("creating copy of file " ++ target))
    else (dest ++ [(target, some data)], none)
  | .dir name children =>
    if ignoreDir name then (dest, none)
    else if (destLookup dest target).isSome then
      (dest, some ("copying directory " ++ target))
    else copyEntries target (dest ++ [(target, none)]) children

/-- The walk over the entries of one directory, in walk order; the first
error aborts the remainder, as `filepath.Walk` does. -/
def copyEntries (base : String) (dest : Dest) (es : List FsEntry) :
    Dest × Option String :=
  match es with
  | [] => (dest, none)
  | e :: rest =>
    match copyEntry (base ++ "/" ++ e.name) dest e with
    | (d, some err) => (d, some err)
    | (d, none) => copyEntries base d rest

end

/-- `copyDir(to, from)` from goget.go: the root itself produces no action;
its entries are walked with the classification above. -/
def copyDir (dst : String) (dest : Dest) (tree : List FsEntry) :
    Dest × Option String :=
  copyEntries dst dest tree

/-- `d₂` holds every path `d₁` holds, with the same first-found contents. -/
def destExtends (d₁ d₂ : Dest) : Prop :=
  ∀ p v, destLookup d₁ p = some v → destLookup d₂ p = some v

/-! ## The metadata resolver (imports.go: resolver.fetchImportMeta)

The resolver is embedded as a small-step machine.  The shared state holds
the completed-results list and the in-flight list; each concurrent caller
is a thread stepping through the phases of `resolver.fetchImportMeta`.
Each mutex-protected section of the Go code is one atomic step; the
network fetch (one step, consulting an oracle from package path to result,
`none` modelling a fetch error) and the wait on an in-flight channel
happen outside the lock, as in the code.  In-flight records are kept in an
append-only store (`entries`) because Go waiters hold a pointer to the
record even after it is removed from the in-flight list; the list itself
(`inflight`) holds store indices in scan order.  The fetched-package log
(`fetches`) records every network fetch performed. -/

structure PkgMeta where
  Root : String
  Remote : String
  VCS : String
deriving DecidableEq

structure REntry where
  pkg : String
  done : Bool
  result : Option PkgMeta
deriving DecidableEq

structure RState where
  results : List PkgMeta
  entries : List REntry
  inflight : List Nat
deriving DecidableEq

inductive TState where
  | start (pkg : String)
  | fetching (pkg : String) (eid : Nat)
  | recording (pkg : String) (eid : Nat)
  | waiting (eid : Nat)
  | finished (result : Option PkgMeta)
deriving DecidableEq

structure Config where
  rs : RState
  threads : List TState
  fetches : List String
deriving DecidableEq

/-- The completed-results scan of `resolver.fetchImportMeta`: the first
cached result whose `Root` is a raw string prefix of the requested path
(`strings.HasPrefix(pkg, result.Root)`). -/
def findCache (results : List PkgMeta) (pkg : String) : Option PkgMeta :=
  results.find? (fun m => isPfxOf m.Root pkg)

/-- The in-flight overlap test of `resolver.fetchImportMeta`: either path
is a raw string prefix of the other. -/
def inflightMatches (epkg pkg : String) : Bool :=
  isPfxOf epkg pkg || isPfxOf pkg epkg

/-- The in-flight scan: the first in-flight record (in list order) whose
registered path overlaps the requested path. -/
def findInflight (rs : RState) (pkg : String) : Option Nat :=
  rs.inflight.find? (fun eid =>
    match rs.entries[eid]? with
    | some e => inflightMatches e.pkg pkg
    | none => false)

/-- One atomic step of thread `tid`.  `start`: the first locked section
(cache scan, then in-flight scan and join, else registration).
`fetching`: the network fetch plus `close(done)`.  `recording`: the second
locked section (append to results on success, remove own in-flight records
by path equality).  `waiting`: the read after the in-flight channel is
closed.  Returns `none` when the thread cannot step. -/
def step (oracle : String → Option PkgMeta) (c : Config) (tid : Nat) :
    Option Config :=
  match c.threads[tid]? with
  | none => none
  | some t =>
    match t with
    | .start pkg =>
      match findCache c.rs.results pkg with
      | some m =>
        some { c with threads := c.threads.set tid (.finished (some m)) }
      | none =>
        match findInflight c.rs pkg with
        | some eid =>
          some { c with threads := c.threads.set tid (.waiting eid) }
        | none =>
          some { c with
            rs := { c.rs with
              entries := c.rs.entries ++ [⟨pkg, false, none⟩],
              inflight := c.rs.inflight ++ [c.rs.entries.length] },
            threads := c.threads.set tid (.fetching pkg c.rs.entries.length) }
    | .fetching pkg eid =>
      some { c with
        rs := { c.rs with entries := c.rs.entries.set eid ⟨pkg, true, oracle pkg⟩ },
        threads := c.threads.set tid (.recording pkg eid),
        fetches := c.fetches ++ [pkg] }
    | .recording pkg eid =>
      match c.rs.entries[eid]? with
      | none => none
      | some e =>
        some { c with
          rs := { c.rs with
            results := match e.result with
              | some m => c.rs.results ++ [m]
              | none => c.rs.results,
            inflight := c.rs.inflight.filter (fun i =>
              match c.rs.entries[i]? with
              | some e2 => decide (e2.pkg ≠ pkg)
              | none => false) },
          threads := c.threads.set tid (.finished e.result) }
    | .waiting eid =>
      match c.rs.entries[eid]? with
      | some e =>
        if e.done then
          some { c with threads := c.threads.set tid (.finished e.result) }
        else none
      | none => none
    | .finished _ => none

/-- Run a schedule: threads step in the scheduled order; a thread that
cannot step is skipped. -/
def run (oracle : String → Option PkgMeta) (c : Config) :
    List Nat → Config
  | [] => c
  | tid :: sch =>
    match step oracle c tid with
    | some c1 => run oracle c1 sch
    | none => run oracle c sch

/-- The initial configuration: one `start` thread per requested path,
empty resolver state. -/
def initConfig (pkgs : List String) : Config :=
  ⟨⟨[], [], []⟩, pkgs.map .start, []⟩

def TState.isStart : TState → Bool
  | .start _ => true
  | _ => false

def TState.isFetching : TState → Bool
  | .fetching _ _ => true
  | _ => false

def TState.isActive : TState → Bool
  | .fetching _ _ => true
  | .recording _ _ => true
  | _ => false

@[simp] theorem isStart_start (q : String) :
    TState.isStart (.start q) = true := rfl
@[simp] theorem isStart_fetching (q : String) (e : Nat) :
    TState.isStart (.fetching q e) = false := rfl
@[simp] theorem isStart_recording (q : String) (e : Nat) :
    TState.isStart (.recording q e) = false := rfl
@[simp] theorem isStart_waiting (e : Nat) :
    TState.isStart (.waiting e) = false := rfl
@[simp] theorem isStart_finished (r : Option PkgMeta) :
    TState.isStart (.finished r) = false := rfl
@[simp] theorem isFetching_start (q : String) :
    TState.isFetching (.start q) = false := rfl
@[simp] theorem isFetching_fetching (q : String) (e : Nat) :
    TState.isFetching (.fetching q e) = true := rfl
@[simp] theorem isFetching_recording (q : String) (e : Nat) :
    TState.isFetching (.recording q e) = false := rfl
@[simp] theorem isFetching_waiting (e : Nat) :
    TState.isFetching (.waiting e) = false := rfl
@[simp] theorem isFetching_finished (r : Option PkgMeta) :
    TState.isFetching (.finished r) = false := rfl
@[simp] theorem isActive_start (q : String) :
    TState.isActive (.start q) = false := rfl
@[simp] theorem isActive_fetching (q : String) (e : Nat) :
    TState.isActive (.fetching q e) = true := rfl
@[simp] theorem isActive_recording (q : String) (e : Nat) :
    TState.isActive (.recording q e) = true := rfl
@[simp] theorem isActive_waiting (e : Nat) :
    TState.isActive (.waiting e) = false := rfl
@[simp] theorem isActive_finished (r : Option PkgMeta) :
    TState.isActive (.finished r) = false := rfl

/-- Every pair of requested paths is raw-prefix comparable. -/
def PairwiseComparable (pkgs : List String) : Prop :=
  ∀ p ∈ pkgs, ∀ q ∈ pkgs, isPfxOf p q = true ∨ isPfxOf q p = true

instance decPairwiseComparable (pkgs : List String) :
    Decidable (PairwiseComparable pkgs) := by
  unfold PairwiseComparable
  infer_instance

/-- Thread-state soundness once every caller is past its initial locked
section: the only in-flight key is `p` at store index 0, and every
finished caller carries the oracle answer for `p`. -/
def tOk (oracle : String → Option PkgMeta) (p : String) : TState → Prop
  | .start _ => False
  | .fetching q eid => q = p ∧ eid = 0
  | .recording q eid => q = p ∧ eid = 0
  | .waiting eid => eid = 0
  | .finished r => r = oracle p

/-- Invariant of the resolver machine after every caller has taken its
first step and before any fetch: a single registered request for `p`
(store index 0) drives everything, at most one fetch is ever recorded,
results come only from the oracle answer for `p`, and every finished
caller observed that same answer. -/
structure SInv (oracle : String → Option PkgMeta) (p : String) (c : Config) :
    Prop where
  hthreads : ∀ t ∈ c.threads, tOk oracle p t
  hentries : c.rs.entries = [] ∨ c.rs.entries = [⟨p, false, none⟩] ∨
    c.rs.entries = [⟨p, true, oracle p⟩]
  hresults : c.rs.results = [] ∨ c.rs.results = (oracle p).toList
  hfetches : c.fetches = [] ∨ c.fetches = [p]
  hresLedger : c.rs.results.length + c.threads.countP TState.isActive ≤ 1
  hfetchLedger : c.fetches.length + c.threads.countP TState.isFetching ≤ 1
  hrec : ∀ q eid, TState.recording q eid ∈ c.threads →
    c.rs.entries = [⟨p, true, oracle p⟩] ∧ c.fetches = [p]
  hfet : ∀ q eid, TState.fetching q eid ∈ c.threads →
    c.rs.entries = [⟨p, false, none⟩]

/-- Invariant of the resolver machine while no fetch has happened yet:
the resolver state is empty, or exactly one request is registered and every
thread is still starting, fetching that request, or waiting on it. -/
structure QInv (pkgs : List String) (c : Config) : Prop where
  hres : c.rs.results = []
  hfetch : c.fetches = []
  hcase :
    (c.rs.entries = [] ∧ c.rs.inflight = [] ∧
     ∀ t ∈ c.threads, ∃ q, q ∈ pkgs ∧ t = .start q) ∨
    (∃ p, p ∈ pkgs ∧ c.rs.entries = [⟨p, false, none⟩] ∧
     c.rs.inflight = [0] ∧
     (∀ t ∈ c.threads, (∃ q, q ∈ pkgs ∧ t = .start q) ∨
        t = .fetching p 0 ∨ t = .waiting 0) ∧
     c.threads.countP TState.isFetching ≤ 1 ∧
     c.threads.countP TState.isActive ≤ 1)

/-! ## Manifest parser (manifest.go: parseGodeps)

JSON decoding is the stdlib collaborator, so the parser is embedded at the
level of the decoded `Deps` records.  The Go revision map is modelled as an
association list with in-place overwrite; the per-revision resolutions run
in an errgroup whose first error aborts the parse, and since the claims are
insensitive to completion order, the lookups are sequenced in map order.
The fatal-validation message follows manifest.go (apostrophe elided). -/

structure Dep where
  ImportPath : String
  Rev : String
  Comment : String
deriving DecidableEq

structure pinnedPackage where
  meta : PkgMeta
  version : String
deriving DecidableEq

def insertRev : List (String × String) → String → String →
    List (String × String)
  | [], rev, ip => [(rev, ip)]
  | e :: m, rev, ip =>
    if e.1 = rev then (rev, ip) :: m else e :: insertRev m rev ip

def buildLookup (acc : List (String × String)) :
    List Dep → Except String (List (String × String))
  | [] => .ok acc
  | d :: ds =>
    if d.ImportPath = "" then buildLookup acc ds
    else if d.Rev = "" then
      .error ("import " ++ d.ImportPath ++ " did not have an associated ref")
    else buildLookup (insertRev acc d.Rev d.ImportPath) ds

def resolveAll (lookupPkgMeta : String → Except String PkgMeta) :
    List (String × String) → Except String (List pinnedPackage)
  | [] => .ok []
  | e :: m =>
    match lookupPkgMeta e.2 with
    | .error err =>
      .error ("lookup metatags for package " ++ e.2 ++ ": " ++ err)
    | .ok meta =>
      match resolveAll lookupPkgMeta m with
      | .error err2 => .error err2
      | .ok rest => .ok (⟨meta, e.1⟩ :: rest)

def parseGodeps (lookupPkgMeta : String → Except String PkgMeta)
    (deps : List Dep) : Except String (List pinnedPackage) :=
  match buildLookup [] deps with
  | .error e => .error e
  | .ok m => resolveAll lookupPkgMeta m

/-! ## Fetch & checkout engine (goget.go: goGet)

The Masterminds/vcs repository driver and the cache lock are external
collaborators: the driver is an oracle giving the outcome of each operation
goGet may perform (CheckLocal, Get, the first UpdateVersion attempt,
Update, the retried UpdateVersion) plus the filtered-copy outcome, and the
cache.dir lock wrapper runs its body directly.  goGet additionally logs
the repository operations it performs, in order.  Error strings follow the
errors.Wrap/Wrapf wrapping of goget.go; the clone branch abstracts the
vcs.RemoteError diagnostics into the oracle error text. -/

inductive RepoOp where
  | opGet
  | opUpdate
  | opUpdateVersion
  | opCopy
deriving DecidableEq

structure RepoOps where
  checkLocal : Bool
  getResult : Except String Unit
  updateVersionFirst : Except String Unit
  updateResult : Except String Unit
  updateVersionRetry : Except String Unit
  copyResult : Except String Unit

/-- The body of `goGet` after the clone phase: try UpdateVersion; on
failure Update (pull) and retry UpdateVersion once, a second failure being
fatal with the revision in the message; then copy the filtered tree. -/
def goGetUpdate (r : RepoOps) (version : String) (cloneOps : List RepoOp) :
    Except String Unit × List RepoOp :=
  match r.updateVersionFirst with
  | .ok _ =>
    match r.copyResult with
    | .error e => (.error ("copying repo: " ++ e),
        cloneOps ++ [.opUpdateVersion, .opCopy])
    | .ok _ => (.ok (), cloneOps ++ [.opUpdateVersion, .opCopy])
  | .error _ =>
    match r.updateResult with
    | .error e => (.error ("updating repo: " ++ e),
        cloneOps ++ [.opUpdateVersion, .opUpdate])
    | .ok _ =>
      match r.updateVersionRetry with
      | .error e =>
        (.error ("updating repo to revision " ++ version ++ ": " ++ e),
         cloneOps ++ [.opUpdateVersion, .opUpdate, .opUpdateVersion])
      | .ok _ =>
        match r.copyResult with
        | .error e => (.error ("copying repo: " ++ e),
            cloneOps ++ [.opUpdateVersion, .opUpdate, .opUpdateVersion, .opCopy])
        | .ok _ => (.ok (),
            cloneOps ++ [.opUpdateVersion, .opUpdate, .opUpdateVersion, .opCopy])

/-- `goGet` from goget.go: an empty version is a fatal precondition error;
otherwise clone when no local copy exists, then update/checkout/copy. -/
def goGet (r : RepoOps) (version : String) :
    Except String Unit × List RepoOp :=
  if version = "" then (.error "no version specified to checkout", [])
  else if r.checkLocal then goGetUpdate r version []
  else
    match r.getResult with
    | .error e => (.error ("cloning repo: " ++ e), [RepoOp.opGet])
    | .ok _ => goGetUpdate r version [RepoOp.opGet]

/-! ## Static hosting-provider matching (imports.go: vcsList / importMeta)

Each `vcsList` entry is an anchored regular expression whose first capture
group (`rootpkg`) starts at the beginning of the path.  Every pattern is
translated into a matcher over the character list that returns the LENGTH
of the `rootpkg` capture when the whole path matches; the root is then the
corresponding take-prefix of the path, exactly as an anchored leading
capture group is.  Character classes follow the patterns:
`isSegChar` is [A-Za-z0-9_.-], `isLowAlnum` is [a-z0-9], `isHostChar` is
[a-z0-9.-], `isGcHostChar` is [a-z0-9_.-], `isCgChar` is [a-z0-9-]. -/

def isSegChar (c : Char) : Bool :=
  ('A' ≤ c && c ≤ 'Z') || ('a' ≤ c && c ≤ 'z') || ('0' ≤ c && c ≤ '9') ||
  c = '_' || c = '.' || c = '-'

def isLowAlnum (c : Char) : Bool :=
  ('a' ≤ c && c ≤ 'z') || ('0' ≤ c && c ≤ '9')

def isHostChar (c : Char) : Bool := isLowAlnum c || c = '.' || c = '-'

def isGcHostChar (c : Char) : Bool :=
  isLowAlnum c || c = '_' || c = '-' || c = '.'

def isCgChar (c : Char) : Bool := isLowAlnum c || c = '-'

def isDigitChar (c : Char) : Bool := '0' ≤ c && c ≤ '9'

/-- Split on `/` (like Go strings.Split with separator `/`). -/
def splitSlash : List Char → List (List Char)
  | [] => [[]]
  | c :: cs =>
    if c = '/' then [] :: splitSlash cs
    else
      match splitSlash cs with
      | s :: rest => (c :: s) :: rest
      | [] => [[c]]

/-- A nonempty path segment over [A-Za-z0-9_.-] (the `A+` of the
patterns). -/
def okSeg (s : List Char) : Bool := !s.isEmpty && s.all isSegChar

def okSegs (segs : List (List Char)) : Bool := segs.all okSeg

/-- `^(github\.com/A+/A+)(/A+)*$`, root = first three segments. -/
def matchGithub (cs : List Char) : Option Nat :=
  match splitSlash cs with
  | s0 :: s1 :: s2 :: rest =>
    if s0 = "github.com".data && okSeg s1 && okSeg s2 && okSegs rest then
      some (s0.length + s1.length + s2.length + 2)
    else none
  | _ => none

/-- `^(bitbucket\.org/(A+/A+))(/A+)*$`, root = first three segments. -/
def matchBitbucket (cs : List Char) : Option Nat :=
  match splitSlash cs with
  | s0 :: s1 :: s2 :: rest =>
    if s0 = "bitbucket.org".data && okSeg s1 && okSeg s2 && okSegs rest then
      some (s0.length + s1.length + s2.length + 2)
    else none
  | _ => none

/-- `^(launchpad\.net/((A+)(/A+)?|~A+/(\+junk|A+)/A+))(/A+)*$`: a root of
two or (greedily) three segments, or the four-segment `~user` form. -/
def matchLaunchpad (cs : List Char) : Option Nat :=
  match splitSlash cs with
  | s0 :: s1 :: rest =>
    if s0 = "launchpad.net".data then
      match s1 with
      | '~' :: u =>
        match rest with
        | s2 :: s3 :: rest2 =>
          if (!u.isEmpty && u.all isSegChar) &&
              (s2 = "+junk".data || okSeg s2) && okSeg s3 && okSegs rest2 then
            some (s0.length + s1.length + s2.length + s3.length + 3)
          else none
        | _ => none
      | _ =>
        if okSeg s1 && okSegs rest then
          match rest with
          | [] => some (s0.length + s1.length + 1)
          | s2 :: _ => some (s0.length + s1.length + s2.length + 2)
        else none
    else none
  | _ => none

/-- `^(git\.launchpad\.net/((A+)|~A+/(\+git|A+)/A+))$`: no trailing
segments; root = whole path. -/
def matchGitLaunchpad (cs : List Char) : Option Nat :=
  match splitSlash cs with
  | [s0, s1] =>
    if s0 = "git.launchpad.net".data then
      match s1 with
      | '~' :: _ => none
      | _ => if okSeg s1 then some cs.length else none
    else none
  | [s0, s1, s2, s3] =>
    if s0 = "git.launchpad.net".data then
      match s1 with
      | '~' :: u =>
        if (!u.isEmpty && u.all isSegChar) &&
            (s2 = "+git".data || okSeg s2) && okSeg s3 then
          some cs.length
        else none
      | _ => none
    else none
  | _ => none

/-- `^(hub\.jazz\.net/git/[a-z0-9]+/A+)(/A+)*$`, root = four segments. -/
def matchJazz (cs : List Char) : Option Nat :=
  match splitSlash cs with
  | s0 :: s1 :: s2 :: s3 :: rest =>
    if s0 = "hub.jazz.net".data && s1 = "git".data &&
        (!s2.isEmpty && s2.all isLowAlnum) && okSeg s3 && okSegs rest then
      some (s0.length + s1.length + s2.length + s3.length + 3)
    else none
  | _ => none

/-- `^(go\.googlesource\.com/A+/?)$`: root = the whole path, optionally
with a trailing slash. -/
def matchGooglesource (cs : List Char) : Option Nat :=
  match splitSlash cs with
  | [s0, s1] =>
    if s0 = "go.googlesource.com".data && okSeg s1 then some cs.length
    else none
  | [s0, s1, s2] =>
    if s0 = "go.googlesource.com".data && okSeg s1 && s2 = [] then
      some cs.length
    else none
  | _ => none

/-- Split on `.` (for the code.google.com project segment). -/
def splitDot : List Char → List (List Char)
  | [] => [[]]
  | c :: cs =>
    if c = '.' then [] :: splitDot cs
    else
      match splitDot cs with
      | s :: rest => (c :: s) :: rest
      | [] => [[c]]

/-- The `([a-z0-9-]+)(\.([a-z0-9-]+))?` project segment of the
code.google.com pattern. -/
def codeGoogleProj (s : List Char) : Bool :=
  match splitDot s with
  | [a] => !a.isEmpty && a.all isCgChar
  | [a, b] => (!a.isEmpty && a.all isCgChar) && (!b.isEmpty && b.all isCgChar)
  | _ => false

/-- `^(code\.google\.com/[pr]/proj)(/A+)*$`, root = three segments. -/
def matchCodeGoogle (cs : List Char) : Option Nat :=
  match splitSlash cs with
  | s0 :: s1 :: s2 :: rest =>
    if s0 = "code.google.com".data && (s1 = ['p'] || s1 = ['r']) &&
        codeGoogleProj s2 && okSegs rest then
      some (s0.length + s1.length + s2.length + 2)
    else none
  | _ => none

/-- The `[a-z0-9_.-]+\.googlecode\.com` host of the googlecode
patterns. -/
def gcHostOk (host : List Char) : Bool :=
  ".googlecode.com".data.isSuffixOf host &&
  (let pre := host.take (host.length - 15)
   !pre.isEmpty && pre.all isGcHostChar)

/-- `^(host\.googlecode\.com/svn(/.*)?)$` — the capture covers the whole
path (the `(/.*)?` is inside it). -/
def matchGooglecodeSvn (cs : List Char) : Option Nat :=
  let host := cs.takeWhile (fun c => c ≠ '/')
  if gcHostOk host then
    match cs.drop host.length with
    | '/' :: r2 =>
      if r2.take 3 = "svn".data then
        match r2.drop 3 with
        | [] => some cs.length
        | '/' :: tail =>
          if tail.all (fun c => c ≠ '\n') then some cs.length else none
        | _ => none
      else none
    | _ => none
  else none

/-- `^(host\.googlecode\.com/(git|hg))(/.*)?$` — the capture stops after
the kind segment. -/
def matchGooglecodeGitHg (cs : List Char) : Option Nat :=
  let host := cs.takeWhile (fun c => c ≠ '/')
  if gcHostOk host then
    match cs.drop host.length with
    | '/' :: r2 =>
      if r2.take 3 = "git".data then
        match r2.drop 3 with
        | [] => some (host.length + 4)
        | '/' :: tail =>
          if tail.all (fun c => c ≠ '\n') then some (host.length + 4)
          else none
        | _ => none
      else if r2.take 2 = "hg".data then
        match r2.drop 2 with
        | [] => some (host.length + 3)
        | '/' :: tail =>
          if tail.all (fun c => c ≠ '\n') then some (host.length + 3)
          else none
        | _ => none
      else none
    | _ => none
  else none

/-- `(/A+)*$` after the vcs extension of the generic pattern. -/
def tailOk (rem : List Char) : Bool :=
  match rem with
  | [] => true
  | '/' :: more => okSegs (splitSlash more)
  | _ => false

/-- `\.(bzr|git|hg|svn)` followed by a valid tail; returns the extension
length. -/
def extCheck (rest : List Char) : Option Nat :=
  if rest.take 3 = "bzr".data && tailOk (rest.drop 3) then some 3
  else if rest.take 3 = "git".data && tailOk (rest.drop 3) then some 3
  else if rest.take 2 = "hg".data && tailOk (rest.drop 2) then some 2
  else if rest.take 3 = "svn".data && tailOk (rest.drop 3) then some 3
  else none

/-- The non-greedy scan of the generic pattern: the repo-path part ranges
over the segment characters plus the slash, lazily, up to a dot starting a
vcs extension (`bzr`, `git`, `hg`, `svn`) with a valid tail — so the FIRST
such dot wins, which is the RE2 capture semantics of a lazy quantifier.
Returns the scanned length including the dot and the extension. -/
def scanRepo : List Char → Option Nat
  | [] => none
  | c :: rest =>
    if c = '.' then
      match extCheck rest with
      | some k => some (1 + k)
      | none =>
        match scanRepo rest with
        | some n => some (n + 1)
        | none => none
    else if isSegChar c || c = '/' then
      match scanRepo rest with
      | some n => some (n + 1)
      | none => none
    else none

/-- `(D+\.)+D+` over D = [a-z0-9.-]: an all-D string with a dot that is
neither at the start nor adjacent to the end. -/
def hasInnerDot : List Char → Bool
  | [] => false
  | _ :: rest => rest.dropLast.contains '.'

/-- The generic fall-through pattern
`^((([a-z0-9.-]+\.)+[a-z0-9.-]+(:[0-9]+)?/E*?)\.(bzr|git|hg|svn))(/A+)*$`:
a dotted host, optional port, then the lazy scan for the vcs extension;
root = host[:port] plus the scanned repo part. -/
def matchGeneric (cs : List Char) : Option Nat :=
  let host := cs.takeWhile isHostChar
  if hasInnerDot host then
    match cs.drop host.length with
    | ':' :: r1 =>
      let port := r1.takeWhile isDigitChar
      if port.isEmpty then none
      else
        match r1.drop port.length with
        | '/' :: r2 =>
          match scanRepo r2 with
          | some k => some (host.length + 1 + port.length + 1 + k)
          | none => none
        | _ => none
    | '/' :: r2 =>
      match scanRepo r2 with
      | some k => some (host.length + 1 + k)
      | none => none
    | _ => none
  else none

/-- `vcsList` from imports.go: the matchers in source order, each with its
fixed version-control kind (empty when the entry sets none; note the
source literally says "svc" for the googlecode svn entry). -/
def vcsList : List ((List Char → Option Nat) × String) :=
  [(matchGithub, "git"),
   (matchBitbucket, ""),
   (matchLaunchpad, "bzr"),
   (matchGitLaunchpad, "git"),
   (matchJazz, "git"),
   (matchGooglesource, ""),
   (matchCodeGoogle, "git"),
   (matchGooglecodeSvn, "svc"),
   (matchGooglecodeGitHg, ""),
   (matchGeneric, "")]

/-- The first-match-wins loop of `importMeta`: the captured root (when
non-empty, mirroring the `m[1] != ""` guard) becomes `Root`, `Remote` is
`https://` plus the root, and `VCS` is the entry kind. -/
def importMetaAux (pkg : String) :
    List ((List Char → Option Nat) × String) → Option PkgMeta
  | [] => none
  | (m, vcs) :: rest =>
    match m pkg.data with
    | some n =>
      if n ≠ 0 then
        some ⟨⟨pkg.data.take n⟩, "https://" ++ ⟨pkg.data.take n⟩, vcs⟩
      else importMetaAux pkg rest
    | none => importMetaAux pkg rest

/-- `importMeta` from imports.go. -/
def importMeta (pkg : String) : Option PkgMeta := importMetaAux pkg vcsList

/-! ## Discovery-page parsing (imports.go: parseImportMeta)

The encoding/xml tokenizer is the stdlib collaborator; the parser is
embedded over its token stream.  `XmlEnding` is what the decoder reports
once the tokens are exhausted: `eof` (mapped to the no-metadata error) or
any other decoder error (wrapped as a parse failure).  `MetaErr.noMeta`
stands for the `no go-import meta field found` error of imports.go. -/

inductive XmlToken where
  | startElem (name : String) (attrs : List (String × String))
  | endElem (name : String)
  | other
deriving DecidableEq

inductive XmlEnding where
  | eof
  | decodeError
deriving DecidableEq

inductive MetaErr where
  | noMeta
  | parseFailed
deriving DecidableEq

/-- Go `strings.Fields` on characters: maximal whitespace-free runs. -/
def fieldsAux (acc : List Char) : List Char → List (List Char)
  | [] => if acc.isEmpty then [] else [acc.reverse]
  | c :: cs =>
    if c.isWhitespace then
      if acc.isEmpty then fieldsAux [] cs
      else acc.reverse :: fieldsAux [] cs
    else fieldsAux (c :: acc) cs

def fields (s : String) : List String :=
  (fieldsAux [] s.data).map (fun cs => ⟨cs⟩)

/-- `attrValue` from imports.go: the first attribute whose name matches
case-insensitively, else the empty string. -/
def attrValue (attrs : List (String × String)) (name : String) : String :=
  match attrs.find? (fun a => strEqualFold a.1 name) with
  | some a => a.2
  | none => ""

/-- `parseImportMeta` from imports.go over the token stream: a `body`
start element or a `head` end element (case-insensitive) fails with the
no-metadata error before any meta element at that position is considered;
a `meta` start element whose `name` attribute equals `go-import` (exact
comparison) and whose `content` splits into exactly three fields yields
`{Root: f0, VCS: f1, Remote: f2}` immediately; anything else is skipped.
Exhausting the stream maps `eof` to the no-metadata error and any other
decoder error to a parse failure. -/
def parseImportMeta : List XmlToken → XmlEnding → Except MetaErr PkgMeta
  | [], .eof => .error .noMeta
  | [], .decodeError => .error .parseFailed
  | .startElem n attrs :: ts, ending =>
    if strEqualFold n "body" then .error .noMeta
    else if strEqualFold n "meta" then
      if attrValue attrs "name" = "go-import" then
        match fields (attrValue attrs "content") with
        | [f0, f1, f2] => .ok ⟨f0, f2, f1⟩
        | _ => parseImportMeta ts ending
      else parseImportMeta ts ending
    else parseImportMeta ts ending
  | .endElem n :: ts, ending =>
    if strEqualFold n "head" then .error .noMeta
    else parseImportMeta ts ending
  | .other :: ts, ending => parseImportMeta ts ending

/-- A token that terminates the scan with the no-metadata error. -/
def isTerminator : XmlToken → Bool
  | .startElem n _ => strEqualFold n "body"
  | .endElem n => strEqualFold n "head"
  | .other => false

/-- The qualifying-meta test: a `meta` start element carrying
`name="go-import"` and a three-field `content`, together with the
resulting metadata. -/
def qualMeta : XmlToken → Option PkgMeta
  | .startElem n attrs =>
    if strEqualFold n "meta" then
      if attrValue attrs "name" = "go-import" then
        match fields (attrValue attrs "content") with
        | [f0, f1, f2] => some ⟨f0, f2, f1⟩
        | _ => none
      else none
    else none
  | _ => none

/-! ## The discovery fetch (imports.go: fetchImportMeta)

net/http is the external collaborator: an oracle maps the requested URL to
a response (`none` models a transport error) carrying the HTTP status,
status text, and the tokenized body.  The function also returns the list
of network requests it issued.  `resolver.fetchImportMeta` calls this
package-level function for every fresh query; the machine model above
abstracts it as the fetch oracle of the `step` relation. -/

structure HttpResp where
  status : Nat
  statusText : String
  tokens : List XmlToken
  ending : XmlEnding

/-- The discovery URL of fetchImportMeta: `https://` plus the path, with
`go-get=1` appended after `&` when the URL already contains a query, else
after `?`. -/
def goGetURL (pkg : String) : String :=
  if ("https://" ++ pkg).data.contains '?' then
    "https://" ++ pkg ++ "&go-get=1"
  else "https://" ++ pkg ++ "?go-get=1"

/-- `fetchImportMeta` from imports.go (the package-level function): build
the discovery URL, perform the HTTP request, require a 2xx status, parse
the body.  The second component records every network request issued. -/
def fetchImportMeta (http : String → Option HttpResp) (pkg : String) :
    Except String PkgMeta × List String :=
  match http (goGetURL pkg) with
  | none => (.error ("getting go-get url " ++ goGetURL pkg), [goGetURL pkg])
  | some resp =>
    if resp.status / 100 ≠ 2 then
      (.error ("getting go-get url " ++ goGetURL pkg ++ ": " ++
        resp.statusText), [goGetURL pkg])
    else
      match parseImportMeta resp.tokens resp.ending with
      | .error _ => (.error ("parsing response from " ++ goGetURL pkg),
          [goGetURL pkg])
      | .ok m => (.ok m, [goGetURL pkg])

/-- The code includes a file exactly when the amended predicate holds. -/
theorem ignoreFile_eq_not_includeAmended (name : String) :
    ignoreFile name = !includeFileAmended name := by
  unfold ignoreFile includeFileAmended
  split_ifs with h1 h2 h3 <;> simp_all <;> tauto

/-- `ignoreDir` holds exactly for the names the spec lists. -/
theorem ignoreDir_iff (name : String) :
    ignoreDir name = true ↔
      (name = "testdata" ∨ name = "vendor" ∨
       isPfxOf "." name = true ∨ isPfxOf "_" name = true) := by
  unfold ignoreDir
  split_ifs with h1 h2 <;> simp_all <;> tauto

theorem destLookup_append (d s : Dest) (p : String) (v : Option String)
    (h : destLookup d p = some v) : destLookup (d ++ s) p = some v := by
  unfold destLookup at *
  rw [List.find?_append]
  cases hf : d.find? (fun e => e.1 = p) with
  | none => rw [hf] at h; simp at h
  | some x => simp [hf]; rw [hf] at h; simpa using h

theorem destLookup_append_self (d : Dest) (p : String) (v : Option String)
    (h : destLookup d p = none) :
    destLookup (d ++ (p, v) :: s) p = some v := by
  unfold destLookup at *
  rw [List.find?_append]
  cases hf : d.find? (fun e => e.1 = p) with
  | none => simp
  | some x => rw [hf] at h; simp at h

mutual

theorem copyEntry_mono (target : String) (dest : Dest) (e : FsEntry) :
    ∃ s, (copyEntry target dest e).1 = dest ++ s := by
  match e with
  | .file name data =>
    unfold copyEntry
    split_ifs with h1 h2
    · exact ⟨[], by simp⟩
    · exact ⟨[], by simp⟩
    · exact ⟨[(target, some data)], by simp⟩
  | .dir name children =>
    unfold copyEntry
    split_ifs with h1 h2
    · exact ⟨[], by simp⟩
    · exact ⟨[], by simp⟩
    · have ⟨s, hs⟩ :=
        copyEntries_mono target (dest ++ [(target, none)]) children
      exact ⟨(target, none) :: s, by simp [hs]⟩

theorem copyEntries_mono (base : String) (dest : Dest) (es : List FsEntry) :
    ∃ s, (copyEntries base dest es).1 = dest ++ s := by
  match es with
  | [] => exact ⟨[], by simp [copyEntries]⟩
  | e :: rest =>
    unfold copyEntries
    cases hc : copyEntry (base ++ "/" ++ e.name) dest e with
    | mk d err =>
      have ⟨s1, hs1⟩ := copyEntry_mono (base ++ "/" ++ e.name) dest e
      rw [hc] at hs1
      simp at hs1
      subst hs1
      cases err with
      | some msg => exact ⟨s1, by simp⟩
      | none =>
        have ⟨s2, hs2⟩ := copyEntries_mono base (dest ++ s1) rest
        exact ⟨s1 ++ s2, by simp [hs2]⟩

end

theorem destExtends_refl (d : Dest) : destExtends d d := fun _ _ h => h

theorem destExtends_append (d s : Dest) : destExtends d (d ++ s) :=
  fun p v h => destLookup_append d s p v h

theorem destExtends_trans {d₁ d₂ d₃ : Dest}
    (h1 : destExtends d₁ d₂) (h2 : destExtends d₂ d₃) : destExtends d₁ d₃ :=
  fun p v h => h2 p v (h1 p v h)

theorem append_ne_self_of_ne_nil {α : Type} (l s : List α) (hs : s ≠ []) :
    l ++ s ≠ l := by
  intro h
  have hlen : l.length + s.length = l.length := by
    simpa using congrArg List.length h
  have hzero : s.length = 0 := by omega
  exact hs (List.eq_nil_of_length_eq_zero hzero)

mutual

/-- If a visit of `e` succeeded and created something, re-visiting `e`
against any destination that contains everything the successful visit left
behind fails (exclusive-create semantics). -/
theorem copyEntry_rerun (target : String) (dest : Dest) (e : FsEntry)
    (d' : Dest) (h : copyEntry target dest e = (d', none)) (hne : d' ≠ dest)
    (d₂ : Dest) (hext : destExtends d' d₂) :
    ((copyEntry target d₂ e).2).isSome = true := by
  match e with
  | .file name data =>
    unfold copyEntry at h ⊢
    by_cases h1 : ignoreFile name = true
    · rw [if_pos h1] at h
      cases h
      exact absurd rfl hne
    · rw [if_neg h1] at h ⊢
      by_cases h2 : (destLookup dest target).isSome = true
      · rw [if_pos h2] at h
        simp at h
      · rw [if_neg h2] at h
        have hd' : d' = dest ++ [(target, some data)] := by
          cases h
          rfl
        have hnone : destLookup dest target = none :=
          Option.not_isSome_iff_eq_none.mp (by simpa using h2)
        have hhit : destLookup d' target = some (some data) := by
          rw [hd']
          exact destLookup_append_self dest target (some data) hnone
        have hh := hext target (some data) hhit
        rw [hh]
        simp
  | .dir name children =>
    unfold copyEntry at h ⊢
    by_cases h1 : ignoreDir name = true
    · rw [if_pos h1] at h
      cases h
      exact absurd rfl hne
    · rw [if_neg h1] at h ⊢
      by_cases h2 : (destLookup dest target).isSome = true
      · rw [if_pos h2] at h
        simp at h
      · rw [if_neg h2] at h
        have ⟨s, hs⟩ :=
          copyEntries_mono target (dest ++ [(target, none)]) children
        rw [h] at hs
        simp at hs
        have hnone : destLookup dest target = none :=
          Option.not_isSome_iff_eq_none.mp (by simpa using h2)
        have hhit : destLookup d' target = some none := by
          rw [hs]
          exact destLookup_append_self dest target none hnone
        have hh := hext target none hhit
        rw [hh]
        simp

/-- Re-running the walk over a directory listing that previously succeeded
and changed the destination fails on the first entry the successful run
created. -/
theorem copyEntries_rerun (base : String) (dest : Dest) (es : List FsEntry)
    (d' : Dest) (h : copyEntries base dest es = (d', none)) (hne : d' ≠ dest)
    (d₂ : Dest) (hext : destExtends d' d₂) :
    ((copyEntries base d₂ es).2).isSome = true := by
  match es with
  | [] =>
    unfold copyEntries at h
    cases h
    exact absurd rfl hne
  | e :: rest =>
    unfold copyEntries at h ⊢
    cases hc : copyEntry (base ++ "/" ++ e.name) dest e with
    | mk d1 err1 =>
      rw [hc] at h
      cases err1 with
      | some msg => cases h
      | none =>
        have ⟨s1, hs1⟩ := copyEntry_mono (base ++ "/" ++ e.name) dest e
        rw [hc] at hs1
        simp at hs1
        subst hs1
        by_cases hemp : s1 = []
        · subst hemp
          simp at h hc
          have hnoop : copyEntry (base ++ "/" ++ e.name) d₂ e = (d₂, none) := by
            cases e with
            | file name data =>
              unfold copyEntry at hc ⊢
              by_cases h1 : ignoreFile name = true
              · rw [if_pos h1]
              · rw [if_neg h1] at hc ⊢
                by_cases h2 : (destLookup dest
                    (base ++ "/" ++ FsEntry.name (.file name data))).isSome = true
                · rw [if_pos h2] at hc
                  simp at hc
                · rw [if_neg h2] at hc
                  injection hc with hbad hjunk
                  exact absurd hbad
                    (append_ne_self_of_ne_nil dest _ (by simp))
            | dir name children =>
              unfold copyEntry at hc ⊢
              by_cases h1 : ignoreDir name = true
              · rw [if_pos h1]
              · rw [if_neg h1] at hc ⊢
                by_cases h2 : (destLookup dest
                    (base ++ "/" ++ FsEntry.name (.dir name children))).isSome = true
                · rw [if_pos h2] at hc
                  simp at hc
                · rw [if_neg h2] at hc
                  have ⟨s, hs⟩ := copyEntries_mono
                    (base ++ "/" ++ FsEntry.name (.dir name children))
                    (dest ++ [(base ++ "/" ++ FsEntry.name (.dir name children), none)])
                    children
                  rw [hc] at hs
                  replace hs : dest =
                      dest ++ [(base ++ "/" ++ FsEntry.name (.dir name children), none)] ++ s := hs
                  rw [List.append_assoc] at hs
                  exact absurd hs.symm
                    (append_ne_self_of_ne_nil dest _ (by simp))
          rw [hnoop]
          exact copyEntries_rerun base dest rest d' h hne d₂ hext
        · replace h : copyEntries base (dest ++ s1) rest = (d', none) := h
          have hne1 : dest ++ s1 ≠ dest := append_ne_self_of_ne_nil dest s1 hemp
          have ⟨s2, hs2⟩ := copyEntries_mono base (dest ++ s1) rest
          rw [h] at hs2
          replace hs2 : d' = dest ++ s1 ++ s2 := hs2
          have hext1 : destExtends (dest ++ s1) d₂ :=
            destExtends_trans (hs2 ▸ destExtends_append (dest ++ s1) s2) hext
          have herr := copyEntry_rerun (base ++ "/" ++ e.name) dest e
            (dest ++ s1) hc hne1 d₂ hext1
          cases hc2 : copyEntry (base ++ "/" ++ e.name) d₂ e with
          | mk d2 err2 =>
            rw [hc2] at herr
            cases err2 with
            | none => simp at herr
            | some msg => simp

end

/-- C8 as stated is false: `license_test.go` satisfies the claimed
inclusion rule through the legal-prefix clause (lowercased name starts
with "license"), yet the code excludes it — `.go` files ending in
`_test.go` are dropped before the legal-file test is ever consulted, and
the copy walk does not copy the file. -/
theorem claim_C8_counterexample :
    includeFileClaim "license_test.go" = true ∧
    ignoreFile "license_test.go" = true ∧
    copyDir "dst" [] [.file "license_test.go" "x"] = ([], none) := by
  refine ⟨by decide, by decide, ?_⟩
  rfl

/-- C8 (amended): for every entry visited by the filtered copy walk,
ignored directories (named testdata or vendor, or starting with a dot or
underscore) are skipped with their whole subtree; any other directory is
created in the destination; and a file is copied if and only if its name
case-insensitively equals a manifest filename, or its extension is .s or
.c, or its extension is .go and its name does not end in _test.go, or its
extension is none of .s/.c/.go and its lowercased name has a license
prefix or legal substring.  (The legal/licensing clause applies only to
files outside the .s/.c/.go extensions.) -/
theorem claim_C8 :
    (∀ name, ignoreDir name = true ↔
      (name = "testdata" ∨ name = "vendor" ∨
       isPfxOf "." name = true ∨ isPfxOf "_" name = true)) ∧
    (∀ target dest name children, ignoreDir name = true →
      copyEntry target dest (.dir name children) = (dest, none)) ∧
    (∀ target dest name children, ignoreDir name = false →
      destLookup dest target = none →
      destLookup (copyEntry target dest (.dir name children)).1 target =
        some none) ∧
    (∀ name, ignoreFile name = false ↔ includeFileAmended name = true) ∧
    (∀ target dest name data, ignoreFile name = true →
      copyEntry target dest (.file name data) = (dest, none)) ∧
    (∀ target dest name data, ignoreFile name = false →
      destLookup dest target = none →
      copyEntry target dest (.file name data) =
        (dest ++ [(target, some data)], none)) := by
  refine ⟨ignoreDir_iff, ?_, ?_, ?_, ?_, ?_⟩
  · intro target dest name children h
    unfold copyEntry
    rw [if_pos h]
  · intro target dest name children h h2
    unfold copyEntry
    rw [if_neg (by simp [h]), if_neg (by simp [h2])]
    have ⟨s, hs⟩ :=
      copyEntries_mono target (dest ++ [(target, none)]) children
    rw [hs]
    exact destLookup_append (dest ++ [(target, none)]) s target none
      (destLookup_append_self dest target none h2)
  · intro name
    rw [ignoreFile_eq_not_includeAmended]
    simp
  · intro target dest name data h
    unfold copyEntry
    rw [if_pos h]
  · intro target dest name data h h2
    unfold copyEntry
    rw [if_neg (by simp [h]), if_neg (by simp [h2])]

/-- Closed instance of C8 (amended): a dotted directory is skipped with
its subtree, and a license file is copied while nothing else of the
skipped subtree appears. -/
theorem claim_C8_witness :
    ignoreDir ".git" = true ∧
    copyEntry "d/.git" [] (.dir ".git" [.file "a.go" "y"]) = ([], none) ∧
    ignoreFile "LICENSE" = false ∧
    includeFileAmended "LICENSE" = true ∧
    copyEntry "d/LICENSE" [] (.file "LICENSE" "x") =
      ([("d/LICENSE", some "x")], none) :=
  ⟨by decide,
   claim_C8.2.1 "d/.git" [] ".git" [.file "a.go" "y"] (by decide),
   by decide,
   (claim_C8.2.2.2.1 "LICENSE").mp (by decide),
   claim_C8.2.2.2.2.2 "d/LICENSE" [] "LICENSE" "x" (by decide) (by decide)⟩

/-- C9: the filtered copy uses exclusive-create semantics — existing
destination entries are never overwritten (their first-found contents are
preserved by any run), a file visit whose target already exists fails, and
re-running a copy that previously succeeded and created at least one entry
into the now-populated destination fails. -/
theorem claim_C9 :
    (∀ dst dest tree p v, destLookup dest p = some v →
      destLookup (copyDir dst dest tree).1 p = some v) ∧
    (∀ target dest name data, ignoreFile name = false →
      (destLookup dest target).isSome = true →
      copyEntry target dest (.file name data) =
        (dest, some ("creating copy of file " ++ target))) ∧
    (∀ dst dest tree d', copyDir dst dest tree = (d', none) → d' ≠ dest →
      ((copyDir dst d' tree).2).isSome = true) := by
  refine ⟨?_, ?_, ?_⟩
  · intro dst dest tree p v h
    have ⟨s, hs⟩ := copyEntries_mono dst dest tree
    unfold copyDir
    rw [hs]
    exact destLookup_append dest s p v h
  · intro target dest name data h h2
    unfold copyEntry
    rw [if_neg (by simp [h]), if_pos h2]
  · intro dst dest tree d' h hne
    exact copyEntries_rerun dst dest tree d' h hne d' (destExtends_refl d')

/-- Closed instance of C9: copying `LICENSE` into an empty destination
succeeds; a second run into the populated destination fails, and an
unrelated pre-existing entry survives a run untouched. -/
theorem claim_C9_witness :
    destLookup [("q", some "z")] "q" = some (some "z") ∧
    destLookup (copyDir "d" [("q", some "z")] [.file "LICENSE" "x"]).1 "q" =
      some (some "z") ∧
    copyDir "d" [] [.file "LICENSE" "x"] = ([("d/LICENSE", some "x")], none) ∧
    ((copyDir "d" [("d/LICENSE", some "x")] [.file "LICENSE" "x"]).2).isSome =
      true :=
  ⟨by decide,
   claim_C9.1 "d" [("q", some "z")] [.file "LICENSE" "x"] "q" (some "z")
     (by decide),
   by decide,
   claim_C9.2.2 "d" [] [.file "LICENSE" "x"] [("d/LICENSE", some "x")]
     (by decide) (by decide)⟩

theorem countP_set {α : Type} (p : α → Bool) (l : List α) (i : Nat) (a b : α)
    (h : l[i]? = some a) :
    (l.set i b).countP p + (if p a then 1 else 0) =
      l.countP p + (if p b then 1 else 0) := by
  induction l generalizing i with
  | nil => simp at h
  | cons x xs ih =>
    cases i with
    | zero =>
      simp at h
      subst h
      simp only [List.set_cons_zero, List.countP_cons]
      omega
    | succ n =>
      simp at h
      have hrec := ih n h
      simp only [List.set_cons_succ, List.countP_cons]
      omega

theorem sinv_step (oracle : String → Option PkgMeta) (p : String)
    (c c' : Config) (tid : Nat) (hs : SInv oracle p c)
    (h : step oracle c tid = some c') : SInv oracle p c' := by
  unfold step at h
  split at h
  · cases h
  rename_i t heq
  have htm : t ∈ c.threads := List.getElem?_mem heq
  have htok := hs.hthreads t htm
  split at h
  -- start: impossible, no thread is still in its first section
  · exact absurd htok (by simp [tOk])
  -- fetching: the network fetch and close(done)
  · rename_i pkg eid
    obtain ⟨hp, he⟩ : pkg = p ∧ eid = 0 := htok
    subst hp
    subst he
    cases h
    have hent := hs.hfet pkg 0 htm
    have hled := hs.hfetchLedger
    have hsres := hs.hresLedger
    have hcntpos : 0 < c.threads.countP TState.isFetching :=
      List.countP_pos.mpr ⟨_, htm, by simp⟩
    have hf0 : c.fetches = [] := by
      have hlen : c.fetches.length = 0 := by omega
      exact List.length_eq_zero.mp hlen
    have csetF := countP_set TState.isFetching c.threads tid
      (.fetching pkg 0) (.recording pkg 0) heq
    simp at csetF
    have csetA := countP_set TState.isActive c.threads tid
      (.fetching pkg 0) (.recording pkg 0) heq
    simp at csetA
    have hfetZero : (c.threads.set tid (TState.recording pkg 0)).countP
        TState.isFetching = 0 := by omega
    refine ⟨?_, ?_, ?_, ?_, ?_, ?_, ?_, ?_⟩
    · show ∀ t' ∈ c.threads.set tid (TState.recording pkg 0), tOk oracle pkg t'
      intro t' hmem
      rcases List.mem_or_eq_of_mem_set hmem with hold | hnew
      · exact hs.hthreads t' hold
      · subst hnew
        exact ⟨rfl, rfl⟩
    · show c.rs.entries.set 0 ⟨pkg, true, oracle pkg⟩ = [] ∨ _ ∨ _
      rw [hent]
      right
      right
      rfl
    · show c.rs.results = [] ∨ _
      exact hs.hresults
    · show c.fetches ++ [pkg] = [] ∨ c.fetches ++ [pkg] = [pkg]
      rw [hf0]
      right
      rfl
    · show c.rs.results.length +
        (c.threads.set tid (TState.recording pkg 0)).countP TState.isActive ≤ 1
      omega
    · show (c.fetches ++ [pkg]).length +
        (c.threads.set tid (TState.recording pkg 0)).countP TState.isFetching ≤ 1
      simp only [List.length_append, List.length_cons, List.length_nil]
      omega
    · show ∀ q eid, TState.recording q eid ∈
          c.threads.set tid (TState.recording pkg 0) → _ ∧ _
      intro q eid hmem
      rcases List.mem_or_eq_of_mem_set hmem with hold | hnew
      · have hcontra := (hs.hrec q eid hold).1
        rw [hent] at hcontra
        simp at hcontra
      · refine ⟨?_, ?_⟩
        · show c.rs.entries.set 0 ⟨pkg, true, oracle pkg⟩ = _
          rw [hent]
          rfl
        · show c.fetches ++ [pkg] = [pkg]
          rw [hf0]
          rfl
    · show ∀ q eid, TState.fetching q eid ∈
          c.threads.set tid (TState.recording pkg 0) → _
      intro q eid hmem
      have hnofetch := List.countP_eq_zero.mp hfetZero _ hmem
      simp at hnofetch
  -- recording: append the result on success, drop own in-flight records
  · rename_i pkg eid
    obtain ⟨hp, he⟩ : pkg = p ∧ eid = 0 := htok
    subst hp
    subst he
    obtain ⟨hent, hfp⟩ := hs.hrec pkg 0 htm
    split at h
    · cases h
    · rename_i e heq2
      rw [hent] at heq2
      simp at heq2
      cases heq2
      cases h
      have hsres := hs.hresLedger
      have hled := hs.hfetchLedger
      have hactpos : 0 < c.threads.countP TState.isActive :=
        List.countP_pos.mpr ⟨_, htm, by simp⟩
      have hr0 : c.rs.results = [] := by
        have hlen : c.rs.results.length = 0 := by omega
        exact List.length_eq_zero.mp hlen
      have hr0len : c.rs.results.length = 0 := by rw [hr0]; rfl
      have csetF := countP_set TState.isFetching c.threads tid
        (.recording pkg 0) (.finished (oracle pkg)) heq
      simp at csetF
      have csetA := countP_set TState.isActive c.threads tid
        (.recording pkg 0) (.finished (oracle pkg)) heq
      simp at csetA
      refine ⟨?_, ?_, ?_, ?_, ?_, ?_, ?_, ?_⟩
      · show ∀ t' ∈ c.threads.set tid (TState.finished (oracle pkg)),
          tOk oracle pkg t'
        intro t' hmem
        rcases List.mem_or_eq_of_mem_set hmem with hold | hnew
        · exact hs.hthreads t' hold
        · subst hnew
          exact rfl
      · show c.rs.entries = [] ∨ _ ∨ _
        exact hs.hentries
      · show (match (oracle pkg : Option PkgMeta) with
            | some m => c.rs.results ++ [m]
            | none => c.rs.results) = [] ∨ _ = (oracle pkg).toList
        rw [hr0]
        cases horacle : oracle pkg <;> simp
      · show c.fetches = [] ∨ _
        exact hs.hfetches
      · show (match (oracle pkg : Option PkgMeta) with
            | some m => c.rs.results ++ [m]
            | none => c.rs.results).length +
          (c.threads.set tid (TState.finished (oracle pkg))).countP
            TState.isActive ≤ 1
        have hrlen : (match (oracle pkg : Option PkgMeta) with
            | some m => c.rs.results ++ [m]
            | none => c.rs.results).length ≤ 1 := by
          rw [hr0]
          cases oracle pkg <;> simp
        omega
      · show c.fetches.length +
          (c.threads.set tid (TState.finished (oracle pkg))).countP
            TState.isFetching ≤ 1
        omega
      · show ∀ q eid, TState.recording q eid ∈
            c.threads.set tid (TState.finished (oracle pkg)) → _ ∧ _
        intro q eid hmem
        rcases List.mem_or_eq_of_mem_set hmem with hold | hnew
        · exact hs.hrec q eid hold
        · cases hnew
      · show ∀ q eid, TState.fetching q eid ∈
            c.threads.set tid (TState.finished (oracle pkg)) → _
        intro q eid hmem
        rcases List.mem_or_eq_of_mem_set hmem with hold | hnew
        · have hcontra := hs.hfet q eid hold
          rw [hent] at hcontra
          simp at hcontra
        · cases hnew
  -- waiting: read the completed in-flight record
  · rename_i eid
    have he : eid = 0 := htok
    subst he
    split at h
    · rename_i e heq2
      split at h
      · rename_i hdone
        cases h
        have hee : e = ⟨p, true, oracle p⟩ := by
          rcases hs.hentries with h1 | h1 | h1 <;> rw [h1] at heq2 <;>
            simp at heq2
          · rw [← heq2] at hdone
            simp at hdone
          · exact heq2.symm
        subst hee
        have csetF := countP_set TState.isFetching c.threads tid
          (.waiting 0) (.finished (oracle p)) heq
        simp at csetF
        have csetA := countP_set TState.isActive c.threads tid
          (.waiting 0) (.finished (oracle p)) heq
        simp at csetA
        have hsres := hs.hresLedger
        have hled := hs.hfetchLedger
        refine ⟨?_, hs.hentries, hs.hresults, hs.hfetches, ?_, ?_, ?_, ?_⟩
        · show ∀ t' ∈ c.threads.set tid
            (TState.finished (oracle p)), tOk oracle p t'
          intro t' hmem
          rcases List.mem_or_eq_of_mem_set hmem with hold | hnew
          · exact hs.hthreads t' hold
          · subst hnew
            exact rfl
        · show c.rs.results.length + (c.threads.set tid
            (TState.finished (oracle p))).countP
              TState.isActive ≤ 1
          omega
        · show c.fetches.length + (c.threads.set tid
            (TState.finished (oracle p))).countP
              TState.isFetching ≤ 1
          omega
        · show ∀ q eid, TState.recording q eid ∈ c.threads.set tid
            (TState.finished (oracle p)) → _ ∧ _
          intro q eid hmem
          rcases List.mem_or_eq_of_mem_set hmem with hold | hnew
          · exact hs.hrec q eid hold
          · cases hnew
        · show ∀ q eid, TState.fetching q eid ∈ c.threads.set tid
            (TState.finished (oracle p)) → _
          intro q eid hmem
          rcases List.mem_or_eq_of_mem_set hmem with hold | hnew
          · exact hs.hfet q eid hold
          · cases hnew
      · cases h
    · cases h
  -- finished: cannot step
  · cases h

theorem step_fetches (oracle : String → Option PkgMeta) (c : Config)
    (tid : Nat) (c' : Config) (h : step oracle c tid = some c') :
    ∃ s, c'.fetches = c.fetches ++ s := by
  unfold step at h
  split at h
  · cases h
  · split at h
    · split at h
      · cases h
        exact ⟨[], by simp⟩
      · split at h
        · cases h
          exact ⟨[], by simp⟩
        · cases h
          exact ⟨[], by simp⟩
    · cases h
      exact ⟨[_], rfl⟩
    · split at h
      · cases h
      · cases h
        exact ⟨[], by simp⟩
    · split at h
      · split at h
        · cases h
          exact ⟨[], by simp⟩
        · cases h
      · cases h
    · cases h

theorem run_fetches (oracle : String → Option PkgMeta) (c : Config)
    (sch : List Nat) : ∃ s, (run oracle c sch).fetches = c.fetches ++ s := by
  induction sch generalizing c with
  | nil => exact ⟨[], by simp [run]⟩
  | cons tid sch ih =>
    unfold run
    cases hstep : step oracle c tid with
    | none => exact ih c
    | some c1 =>
      obtain ⟨s1, hs1⟩ := step_fetches oracle c tid c1 hstep
      obtain ⟨s2, hs2⟩ := ih c1
      exact ⟨s1 ++ s2, by rw [hs2, hs1, List.append_assoc]⟩

theorem sinv_run (oracle : String → Option PkgMeta) (p : String) (c : Config)
    (sch : List Nat) (hs : SInv oracle p c) : SInv oracle p (run oracle c sch) := by
  induction sch generalizing c with
  | nil => exact hs
  | cons tid sch ih =>
    unfold run
    cases hstep : step oracle c tid with
    | none => exact ih c hs
    | some c1 => exact ih c1 (sinv_step oracle p c c1 tid hs hstep)

theorem qinv_init (pkgs : List String) : QInv pkgs (initConfig pkgs) := by
  refine ⟨rfl, rfl, Or.inl ⟨rfl, rfl, ?_⟩⟩
  intro t ht
  obtain ⟨q, hq, heq⟩ := List.mem_map.mp ht
  exact ⟨q, hq, heq.symm⟩

theorem qinv_step (oracle : String → Option PkgMeta) (pkgs : List String)
    (c c' : Config) (tid : Nat) (hcomp : PairwiseComparable pkgs)
    (hq : QInv pkgs c) (h : step oracle c tid = some c')
    (hnf : c'.fetches = []) : QInv pkgs c' := by
  unfold step at h
  split at h
  · cases h
  rename_i t heq
  have htm : t ∈ c.threads := List.getElem?_mem heq
  split at h
  -- start
  · rename_i pkg0
    have hpkg0 : pkg0 ∈ pkgs := by
      rcases hq.hcase with ⟨-, -, hsh⟩ | ⟨p, hp, -, -, hsh, -, -⟩
      · obtain ⟨q, hqin, hqe⟩ := hsh _ htm
        cases hqe
        exact hqin
      · rcases hsh _ htm with ⟨q, hqin, hqe⟩ | hqe | hqe
        · cases hqe
          exact hqin
        · cases hqe
        · cases hqe
    split at h
    · rename_i m hm
      rw [hq.hres] at hm
      simp [findCache] at hm
    · split at h
      -- join an in-flight request
      · rename_i eid heqf
        cases h
        rcases hq.hcase with ⟨hent, hinfl, hsh⟩ |
          ⟨p, hp, hent, hinfl, hsh, hcnt1, hcnt2⟩
        · unfold findInflight at heqf
          rw [hinfl] at heqf
          simp at heqf
        · have hm : inflightMatches p pkg0 = true := by
            unfold inflightMatches
            rcases hcomp p hp pkg0 hpkg0 with hc | hc <;> simp [hc]
          have heid : eid = 0 := by
            unfold findInflight at heqf
            rw [hinfl, hent] at heqf
            simp [hm] at heqf
            exact heqf.symm
          subst heid
          have csetF := countP_set TState.isFetching c.threads tid
            (.start pkg0) (.waiting 0) heq
          simp at csetF
          have csetA := countP_set TState.isActive c.threads tid
            (.start pkg0) (.waiting 0) heq
          simp at csetA
          refine ⟨hq.hres, hq.hfetch,
            Or.inr ⟨p, hp, hent, hinfl, ?_, ?_, ?_⟩⟩
          · intro t' hmem
            rcases List.mem_or_eq_of_mem_set hmem with hold | hnew
            · exact hsh t' hold
            · subst hnew
              right
              right
              rfl
          · show (c.threads.set tid (TState.waiting 0)).countP
              TState.isFetching ≤ 1
            omega
          · show (c.threads.set tid (TState.waiting 0)).countP
              TState.isActive ≤ 1
            omega
      -- register a new in-flight request
      · rename_i heqf
        cases h
        rcases hq.hcase with ⟨hent, hinfl, hsh⟩ |
          ⟨p, hp, hent, hinfl, hsh, hcnt1, hcnt2⟩
        · have hfet0 : c.threads.countP TState.isFetching = 0 := by
            refine List.countP_eq_zero.mpr ?_
            intro a ha
            obtain ⟨q, -, hqe⟩ := hsh a ha
            subst hqe
            simp
          have hact0 : c.threads.countP TState.isActive = 0 := by
            refine List.countP_eq_zero.mpr ?_
            intro a ha
            obtain ⟨q, -, hqe⟩ := hsh a ha
            subst hqe
            simp
          have csetF := countP_set TState.isFetching c.threads tid
            (.start pkg0) (.fetching pkg0 c.rs.entries.length) heq
          simp at csetF
          have csetA := countP_set TState.isActive c.threads tid
            (.start pkg0) (.fetching pkg0 c.rs.entries.length) heq
          simp at csetA
          refine ⟨hq.hres, hq.hfetch, Or.inr ⟨pkg0, hpkg0, ?_, ?_, ?_, ?_, ?_⟩⟩
          · show c.rs.entries ++ [⟨pkg0, false, none⟩] = _
            rw [hent]
            rfl
          · show c.rs.inflight ++ [c.rs.entries.length] = [0]
            rw [hinfl, hent]
            rfl
          · intro t' hmem
            rcases List.mem_or_eq_of_mem_set hmem with hold | hnew
            · exact Or.inl (hsh t' hold)
            · subst hnew
              right
              left
              rw [hent]
              rfl
          · show (c.threads.set tid
              (TState.fetching pkg0 c.rs.entries.length)).countP
                TState.isFetching ≤ 1
            omega
          · show (c.threads.set tid
              (TState.fetching pkg0 c.rs.entries.length)).countP
                TState.isActive ≤ 1
            omega
        · have hm : inflightMatches p pkg0 = true := by
            unfold inflightMatches
            rcases hcomp p hp pkg0 hpkg0 with hc | hc <;> simp [hc]
          unfold findInflight at heqf
          rw [hinfl, hent] at heqf
          simp [hm] at heqf
  -- fetching: would record a fetch, contradicting hnf
  · cases h
    simp at hnf
  -- recording: no such thread while no fetch happened
  · rename_i pkg eid
    exfalso
    rcases hq.hcase with ⟨-, -, hsh⟩ | ⟨p, hp, -, -, hsh, -, -⟩
    · obtain ⟨q, -, hqe⟩ := hsh _ htm
      cases hqe
    · rcases hsh _ htm with ⟨q, -, hqe⟩ | hqe | hqe <;> cases hqe
  -- waiting: the single registered entry is not done yet
  · rename_i eid
    split at h
    · rename_i e heq2
      split at h
      · rename_i hdone
        cases h
        exfalso
        rcases hq.hcase with ⟨hent, -, -⟩ | ⟨p, hp, hent, -, hsh, -, -⟩
        · rw [hent] at heq2
          simp at heq2
        · have heid : eid = 0 := by
            rcases hsh _ htm with ⟨q, -, hqe⟩ | hqe | hqe
            · cases hqe
            · cases hqe
            · cases hqe
              rfl
          subst heid
          rw [hent] at heq2
          simp at heq2
          cases heq2
          simp at hdone
      · cases h
    · cases h
  -- finished
  · cases h

theorem qinv_run (oracle : String → Option PkgMeta) (pkgs : List String)
    (c : Config) (sch : List Nat) (hcomp : PairwiseComparable pkgs)
    (hq : QInv pkgs c) (hnf : (run oracle c sch).fetches = []) :
    QInv pkgs (run oracle c sch) := by
  induction sch generalizing c with
  | nil => exact hq
  | cons tid sch ih =>
    cases hstep : step oracle c tid with
    | none =>
      have hnf2 : (run oracle c sch).fetches = [] := by
        unfold run at hnf
        rw [hstep] at hnf
        exact hnf
      have hres := ih c hq hnf2
      unfold run
      rw [hstep]
      exact hres
    | some c1 =>
      have hnf2 : (run oracle c1 sch).fetches = [] := by
        unfold run at hnf
        rw [hstep] at hnf
        exact hnf
      have hc1f : c1.fetches = [] := by
        obtain ⟨s, hsx⟩ := run_fetches oracle c1 sch
        rw [hnf2] at hsx
        exact (List.append_eq_nil.mp hsx.symm).1
      have hq1 := qinv_step oracle pkgs c c1 tid hcomp hq hstep hc1f
      have hres := ih c1 hq1 hnf2
      unfold run
      rw [hstep]
      exact hres

theorem qinv_bridge (oracle : String → Option PkgMeta) (pkgs : List String)
    (c : Config) (hq : QInv pkgs c)
    (hstart : ∀ t ∈ c.threads, t.isStart = false) :
    ∃ p, SInv oracle p c := by
  rcases hq.hcase with ⟨hent, hinfl, hsh⟩ |
    ⟨p, hp, hent, hinfl, hsh, hcnt1, hcnt2⟩
  · have hthr : ∀ t ∈ c.threads, False := by
      intro t ht
      obtain ⟨q, -, hqe⟩ := hsh t ht
      subst hqe
      have := hstart _ ht
      simp at this
    have hact0 : c.threads.countP TState.isActive = 0 :=
      List.countP_eq_zero.mpr (fun a ha => (hthr a ha).elim)
    have hfet0 : c.threads.countP TState.isFetching = 0 :=
      List.countP_eq_zero.mpr (fun a ha => (hthr a ha).elim)
    have hrl : c.rs.results.length = 0 := by rw [hq.hres]; rfl
    have hfl : c.fetches.length = 0 := by rw [hq.hfetch]; rfl
    refine ⟨"", ⟨?_, Or.inl hent, Or.inl hq.hres, Or.inl hq.hfetch,
      ?_, ?_, ?_, ?_⟩⟩
    · intro t ht
      exact (hthr t ht).elim
    · omega
    · omega
    · intro q eid hmem
      exact (hthr _ hmem).elim
    · intro q eid hmem
      exact (hthr _ hmem).elim
  · have hrl : c.rs.results.length = 0 := by rw [hq.hres]; rfl
    have hfl : c.fetches.length = 0 := by rw [hq.hfetch]; rfl
    refine ⟨p, ⟨?_, Or.inr (Or.inl hent), Or.inl hq.hres, Or.inl hq.hfetch,
      ?_, ?_, ?_, ?_⟩⟩
    · intro t ht
      rcases hsh t ht with ⟨q, hqin, hqe⟩ | hqe | hqe
      · subst hqe
        have := hstart _ ht
        simp at this
      · subst hqe
        exact ⟨rfl, rfl⟩
      · subst hqe
        exact rfl
    · omega
    · omega
    · intro q eid hmem
      rcases hsh _ hmem with ⟨q2, -, hqe⟩ | hqe | hqe <;> cases hqe
    · intro q eid hmem
      exact hent

/-- C2 as stated is false: two concurrent calls for paths `a/b` and `a/c`
share the root `a` (both resolve to a meta whose Root is `a`), yet since
neither path is a raw string prefix of the other, the in-flight scan joins
nothing: each call registers its own request and two network fetches are
performed.  The schedule interleaves the calls, so both are active before
either completes. -/
theorem claim_C2_counterexample :
    (run (fun _ => some ⟨"a", "https://a", "git"⟩)
      (initConfig ["a/b", "a/c"]) [0, 1, 0, 1, 0, 1]).fetches =
        ["a/b", "a/c"] ∧
    (run (fun _ => some ⟨"a", "https://a", "git"⟩)
      (initConfig ["a/b", "a/c"]) [0, 1, 0, 1, 0, 1]).threads =
        [TState.finished (some ⟨"a", "https://a", "git"⟩),
         TState.finished (some ⟨"a", "https://a", "git"⟩)] := by
  constructor
  · rfl
  · rfl

/-- C2 (amended): for any set of concurrent resolver calls whose module
paths are pairwise raw-prefix comparable (one a string prefix of the
other), once every caller has performed its initial cache/in-flight check
before any fetch completed (schedule prefix `sch₁`), at most one network
fetch is performed during any continuation `sch₂`; all callers that finish
observe the same result (the oracle answer, or the same error); and a
failed resolution is never added to the completed-results cache — every
cached result is a successful oracle answer. -/
theorem claim_C2 (oracle : String → Option PkgMeta) (pkgs : List String)
    (sch₁ sch₂ : List Nat) (hcomp : PairwiseComparable pkgs)
    (hstart : ∀ t ∈ (run oracle (initConfig pkgs) sch₁).threads,
      t.isStart = false)
    (hnf : (run oracle (initConfig pkgs) sch₁).fetches = []) :
    (run oracle (run oracle (initConfig pkgs) sch₁) sch₂).fetches.length ≤ 1 ∧
    (∀ r₁ r₂,
      TState.finished r₁ ∈
        (run oracle (run oracle (initConfig pkgs) sch₁) sch₂).threads →
      TState.finished r₂ ∈
        (run oracle (run oracle (initConfig pkgs) sch₁) sch₂).threads →
      r₁ = r₂) ∧
    (∀ m ∈ (run oracle (run oracle (initConfig pkgs) sch₁) sch₂).rs.results,
      ∃ q, oracle q = some m) := by
  have hq : QInv pkgs (run oracle (initConfig pkgs) sch₁) :=
    qinv_run oracle pkgs (initConfig pkgs) sch₁ hcomp (qinv_init pkgs) hnf
  obtain ⟨p, hsinv⟩ :=
    qinv_bridge oracle pkgs (run oracle (initConfig pkgs) sch₁) hq hstart
  have hfin := sinv_run oracle p (run oracle (initConfig pkgs) sch₁) sch₂ hsinv
  refine ⟨?_, ?_, ?_⟩
  · have := hfin.hfetchLedger
    omega
  · intro r₁ r₂ h₁ h₂
    have e₁ : r₁ = oracle p := hfin.hthreads _ h₁
    have e₂ : r₂ = oracle p := hfin.hthreads _ h₂
    rw [e₁, e₂]
  · intro m hm
    rcases hfin.hresults with hres | hres
    · rw [hres] at hm
      simp at hm
    · rw [hres] at hm
      refine ⟨p, ?_⟩
      cases horacle : oracle p with
      | none =>
        rw [horacle] at hm
        simp at hm
      | some m2 =>
        rw [horacle] at hm
        simp at hm
        subst hm
        rfl

/-- Closed instance of C2 (amended): two prefix-comparable paths, both
callers active after schedule `[0, 1]` with no fetch yet; any continuation
performs at most one fetch. -/
theorem claim_C2_witness :
    (run (fun _ => some ⟨"a", "https://a", "git"⟩)
      (run (fun _ => some ⟨"a", "https://a", "git"⟩)
        (initConfig ["a/b", "a/b/c"]) [0, 1]) [0, 0, 1]).fetches.length ≤ 1 :=
  (claim_C2 (fun _ => some ⟨"a", "https://a", "git"⟩) ["a/b", "a/b/c"]
    [0, 1] [0, 0, 1] (by decide) (by decide) (by decide)).1

/-- C10: the cache-hit test and the in-flight join test are raw
string-prefix tests, with no path-segment boundary check: a call whose
first locked section finds a completed result whose Root is a character
prefix of the requested path returns it immediately with no state change
and no fetch, the cache scan is literally a first-match scan with
`strings.HasPrefix(pkg, Root)`, the in-flight overlap test is
`HasPrefix(pkg, inflight.pkg) || HasPrefix(inflight.pkg, pkg)`, and a call
that misses the cache but overlaps an in-flight request joins it. -/
theorem claim_C10 (oracle : String → Option PkgMeta) (c : Config)
    (tid : Nat) (pkg : String) :
    (∀ m, c.threads[tid]? = some (.start pkg) →
      findCache c.rs.results pkg = some m →
      step oracle c tid =
        some { c with threads := c.threads.set tid (.finished (some m)) }) ∧
    (∀ results (m : PkgMeta), findCache (m :: results) pkg =
      if isPfxOf m.Root pkg then some m else findCache results pkg) ∧
    (∀ epkg, inflightMatches epkg pkg =
      (isPfxOf epkg pkg || isPfxOf pkg epkg)) ∧
    (∀ eid, c.threads[tid]? = some (.start pkg) →
      findCache c.rs.results pkg = none →
      findInflight c.rs pkg = some eid →
      step oracle c tid =
        some { c with threads := c.threads.set tid (.waiting eid) }) := by
  refine ⟨?_, ?_, ?_, ?_⟩
  · intro m ht hm
    simp only [step, ht]
    rw [hm]
  · intro results m
    unfold findCache
    rw [List.find?]
    cases hpf : isPfxOf m.Root pkg <;> simp [hpf]
  · intro epkg
    rfl
  · intro eid ht hm hf
    simp only [step, ht]
    rw [hm, hf]

/-- Closed instance of C10: with cached root `github.com/a/repo`, a call
for `github.com/a/repository` — whose match is not at a `/` boundary —
is a cache hit returning the cached meta without any fetch. -/
theorem claim_C10_witness :
    isPfxOf "github.com/a/repo" "github.com/a/repository" = true ∧
    step (fun _ => none)
      ⟨⟨[⟨"github.com/a/repo", "https://github.com/a/repo", "git"⟩], [], []⟩,
        [TState.start "github.com/a/repository"], []⟩ 0 =
      some ⟨⟨[⟨"github.com/a/repo", "https://github.com/a/repo", "git"⟩], [], []⟩,
        [TState.finished
          (some ⟨"github.com/a/repo", "https://github.com/a/repo", "git"⟩)], []⟩ := by
  refine ⟨by decide, ?_⟩
  have h := (claim_C10 (fun _ => none)
    ⟨⟨[⟨"github.com/a/repo", "https://github.com/a/repo", "git"⟩], [], []⟩,
      [TState.start "github.com/a/repository"], []⟩ 0
    "github.com/a/repository").1
    ⟨"github.com/a/repo", "https://github.com/a/repo", "git"⟩ rfl (by decide)
  exact h

theorem insertRev_find (m : List (String × String)) (rev ip rev' : String) :
    (insertRev m rev ip).find? (fun e => decide (e.1 = rev')) =
      if rev' = rev then some (rev, ip)
      else m.find? (fun e => decide (e.1 = rev')) := by
  induction m with
  | nil =>
    simp only [insertRev]
    by_cases h : rev' = rev
    · subst h
      simp [List.find?]
    · have hd : ¬(rev = rev') := fun hc => h hc.symm
      simp [List.find?, h, hd]
  | cons e m ih =>
    simp only [insertRev]
    by_cases he : e.1 = rev
    · by_cases h : rev' = rev
      · subst h
        simp [List.find?, he]
      · have hd : ¬(rev = rev') := fun hc => h hc.symm
        have hd2 : ¬(e.1 = rev') := fun hc => h ((he.symm.trans hc).symm)
        simp [List.find?, he, h, hd, hd2]
    · by_cases h : rev' = rev
      · subst h
        simp only [if_neg he]
        simp [List.find?, he, ih]
      · simp only [if_neg he]
        cases hp : decide (e.1 = rev') with
        | true => simp [List.find?, hp, h]
        | false => simp [List.find?, hp, ih, h]

theorem insertRev_keys (m : List (String × String)) (rev ip : String) :
    (insertRev m rev ip).map Prod.fst =
      if rev ∈ m.map Prod.fst then m.map Prod.fst
      else m.map Prod.fst ++ [rev] := by
  induction m with
  | nil => simp [insertRev]
  | cons e m ih =>
    simp only [insertRev]
    by_cases he : e.1 = rev <;>
      simp [he, ih, eq_comm] <;> split_ifs <;> simp_all [eq_comm]

theorem insertRev_nodup (m : List (String × String)) (rev ip : String)
    (h : (m.map Prod.fst).Nodup) :
    ((insertRev m rev ip).map Prod.fst).Nodup := by
  rw [insertRev_keys]
  split_ifs with hin
  · exact h
  · simp [List.nodup_append, h, hin]

theorem find?_key_of_mem {m : List (String × String)} {e : String × String}
    (hem : e ∈ m) (hnd : (m.map Prod.fst).Nodup) :
    m.find? (fun x => decide (x.1 = e.1)) = some e := by
  induction m with
  | nil => cases hem
  | cons e2 m ih =>
    rw [List.map_cons, List.nodup_cons] at hnd
    rcases List.mem_cons.mp hem with hh | hh
    · subst hh
      rw [List.find?_cons_of_pos _ (by simp)]
    · rw [List.find?_cons_of_neg]
      · exact ih hh hnd.2
      · simp
        intro hc
        exact hnd.1 (hc ▸ List.mem_map.mpr ⟨e, hh, rfl⟩)

theorem buildLookup_spec (deps : List Dep) (acc : List (String × String))
    (hval : ∀ d ∈ deps, d.ImportPath = "" ∨ d.Rev ≠ "")
    (hnd : (acc.map Prod.fst).Nodup) :
    ∃ m, buildLookup acc deps = .ok m ∧
      (m.map Prod.fst).Nodup ∧
      (∀ rev, m.find? (fun e => decide (e.1 = rev)) =
        (match (deps.filter (fun d => !(d.ImportPath = ""))).reverse.find?
            (fun d => decide (d.Rev = rev)) with
         | some d => some (rev, d.ImportPath)
         | none => acc.find? (fun e => decide (e.1 = rev)))) := by
  induction deps generalizing acc with
  | nil => exact ⟨acc, rfl, hnd, fun rev => by simp⟩
  | cons d ds ih =>
    by_cases hip : d.ImportPath = ""
    · obtain ⟨m, hok, hmnd, hfind⟩ :=
        ih acc (fun x hx => hval x (by simp [hx])) hnd
      refine ⟨m, ?_, hmnd, ?_⟩
      · rw [buildLookup, if_pos hip]
        exact hok
      · intro rev
        rw [hfind rev]
        simp [hip]
    · have hrev : d.Rev ≠ "" := by
        rcases hval d (by simp) with h1 | h1
        · exact absurd h1 hip
        · exact h1
      obtain ⟨m, hok, hmnd, hfind⟩ :=
        ih (insertRev acc d.Rev d.ImportPath)
          (fun x hx => hval x (by simp [hx]))
          (insertRev_nodup acc d.Rev d.ImportPath hnd)
      refine ⟨m, ?_, hmnd, ?_⟩
      · rw [buildLookup, if_neg hip, if_neg hrev]
        exact hok
      · intro rev
        rw [hfind rev]
        have hfil : (!decide (d.ImportPath = "")) = true := by simp [hip]
        simp only [List.filter_cons, hfil, if_true]
        rw [List.reverse_cons, List.find?_append]
        cases hrf : (List.filter (fun d => !decide (d.ImportPath = "")) ds).reverse.find?
            (fun d2 => decide (d2.Rev = rev)) with
        | some d2 => simp
        | none =>
          simp only [Option.none_or]
          cases hdr : decide (d.Rev = rev) with
          | true =>
            have hrr : rev = d.Rev := (of_decide_eq_true hdr).symm
            subst hrr
            rw [insertRev_find]
            simp [List.find?, hdr]
          | false =>
            have hne : rev ≠ d.Rev := fun hc => (of_decide_eq_false hdr) hc.symm
            rw [insertRev_find]
            simp [List.find?, hdr, hne]

theorem resolveAll_ok (f : String → PkgMeta) (m : List (String × String)) :
    resolveAll (fun ip => .ok (f ip)) m =
      .ok (m.map (fun e => ⟨f e.2, e.1⟩)) := by
  induction m with
  | nil => rfl
  | cons e m ih =>
    rw [resolveAll, ih]
    rfl

/-- C5: manifest parsing skips any dependency record whose import path is
empty (wherever it occurs and whatever its revision, including records with
both fields empty), and a record with a non-empty import path and an empty
revision is a fatal parse error raised during validation, before any
resolution: the error is the same for every resolver and does not depend on
the records that follow the offending one. -/
theorem claim_C5 (resolve : String → Except String PkgMeta)
    (pre rest : List Dep) (d : Dep) :
    (d.ImportPath = "" →
      parseGodeps resolve (pre ++ d :: rest) =
        parseGodeps resolve (pre ++ rest)) ∧
    ((∀ e ∈ pre, e.ImportPath = "" ∨ e.Rev ≠ "") → d.ImportPath ≠ "" →
      d.Rev = "" →
      parseGodeps resolve (pre ++ d :: rest) =
        .error ("import " ++ d.ImportPath ++ " did not have an associated ref")) := by
  constructor
  · intro hip
    have hbl : ∀ acc, buildLookup acc (pre ++ d :: rest) =
        buildLookup acc (pre ++ rest) := by
      induction pre with
      | nil =>
        intro acc
        simp only [List.nil_append]
        rw [buildLookup, if_pos hip]
      | cons e pre ih =>
        intro acc
        simp only [List.cons_append]
        rw [buildLookup]
        conv_rhs => rw [buildLookup]
        split_ifs with h1 h2
        · exact ih acc
        · rfl
        · exact ih (insertRev acc e.Rev e.ImportPath)
    unfold parseGodeps
    rw [hbl []]
  · intro hpre hip hrev
    have hbl : ∀ acc, buildLookup acc (pre ++ d :: rest) =
        .error ("import " ++ d.ImportPath ++ " did not have an associated ref") := by
      induction pre with
      | nil =>
        intro acc
        simp only [List.nil_append]
        rw [buildLookup, if_neg hip, if_pos hrev]
      | cons e pre ih =>
        intro acc
        simp only [List.cons_append]
        rw [buildLookup]
        have hpre2 : ∀ x ∈ pre, x.ImportPath = "" ∨ x.Rev ≠ "" :=
          fun x hx => hpre x (by simp [hx])
        have ih2 := ih hpre2
        split_ifs with h1 h2
        · exact ih2 acc
        · rcases hpre e (by simp) with hc | hc
          · exact absurd hc h1
          · exact absurd h2 hc
        · exact ih2 (insertRev acc e.Rev e.ImportPath)
    unfold parseGodeps
    rw [hbl []]

/-- Closed instance of C5: an empty-import record (with a revision) is
dropped, and an unpinned record aborts the parse with the validation error
even though the resolver fails on every path — nothing was resolved. -/
theorem claim_C5_witness :
    parseGodeps (fun ip => .error ("boom " ++ ip))
        ([] ++ Dep.mk "" "r0" "" :: [Dep.mk "a/b" "r1" ""]) =
      parseGodeps (fun ip => .error ("boom " ++ ip))
        ([] ++ [Dep.mk "a/b" "r1" ""]) ∧
    parseGodeps (fun ip => .error ("boom " ++ ip))
        ([Dep.mk "" "" "", Dep.mk "a/b" "r1" ""] ++
          Dep.mk "c/d" "" "" :: [Dep.mk "e/f" "r2" ""]) =
      .error "import c/d did not have an associated ref" :=
  ⟨(claim_C5 (fun ip => .error ("boom " ++ ip)) [] [Dep.mk "a/b" "r1" ""]
      (Dep.mk "" "r0" "")).1 rfl,
   (claim_C5 (fun ip => .error ("boom " ++ ip))
      [Dep.mk "" "" "", Dep.mk "a/b" "r1" ""] [Dep.mk "e/f" "r2" ""]
      (Dep.mk "c/d" "" "")).2 (by decide) (by decide) rfl⟩

/-- C6: on a manifest whose records all pass validation and a resolver
that succeeds everywhere, parsing produces exactly one pinned package per
distinct revision of the non-skipped records: the pinned versions are
duplicate-free and are exactly those revisions, and each package pairs its
revision with the resolution of the surviving representative import path —
the last record carrying that revision (later records overwrite earlier
ones on a collision). -/
theorem claim_C6 (f : String → PkgMeta) (deps : List Dep)
    (hval : ∀ d ∈ deps, d.ImportPath = "" ∨ d.Rev ≠ "") :
    ∃ pkgs, parseGodeps (fun ip => .ok (f ip)) deps = .ok pkgs ∧
      (pkgs.map pinnedPackage.version).Nodup ∧
      (∀ rev, rev ∈ pkgs.map pinnedPackage.version ↔
        rev ∈ (deps.filter (fun d => !(d.ImportPath = ""))).map Dep.Rev) ∧
      (∀ pp ∈ pkgs, ∃ d,
        (deps.filter (fun d => !(d.ImportPath = ""))).reverse.find?
          (fun d2 => decide (d2.Rev = pp.version)) = some d ∧
        pp.meta = f d.ImportPath) := by
  obtain ⟨m, hok, hmnd, hfind⟩ := buildLookup_spec deps [] hval (by simp)
  have hvers : (m.map (fun e => (⟨f e.2, e.1⟩ : pinnedPackage))).map
      pinnedPackage.version = m.map Prod.fst := by
    rw [List.map_map]
    rfl
  refine ⟨m.map (fun e => ⟨f e.2, e.1⟩), ?_, ?_, ?_, ?_⟩
  · unfold parseGodeps
    rw [hok]
    exact resolveAll_ok f m
  · rw [hvers]
    exact hmnd
  · intro rev
    rw [hvers]
    constructor
    · intro hin
      obtain ⟨e, hem, hee⟩ := List.mem_map.mp hin
      have hsome : m.find? (fun x => decide (x.1 = rev)) ≠ none := by
        intro hnone
        rw [List.find?_eq_none] at hnone
        exact hnone e hem (by simp [hee])
      rw [hfind rev] at hsome
      cases hrf : (deps.filter (fun d => !(d.ImportPath = ""))).reverse.find?
          (fun d2 => decide (d2.Rev = rev)) with
      | none =>
        rw [hrf] at hsome
        simp at hsome
      | some d2 =>
        have hd2 := List.find?_some hrf
        have hmem : d2 ∈ (deps.filter (fun d => !(d.ImportPath = ""))).reverse :=
          List.mem_of_find?_eq_some hrf
        rw [List.mem_reverse] at hmem
        have hd2r : d2.Rev = rev := of_decide_eq_true hd2
        rw [← hd2r]
        exact List.mem_map.mpr ⟨d2, hmem, rfl⟩
    · intro hin
      obtain ⟨d2, hd2m, hd2e⟩ := List.mem_map.mp hin
      have hne : (deps.filter (fun d => !(d.ImportPath = ""))).reverse.find?
          (fun d2 => decide (d2.Rev = rev)) ≠ none := by
        intro hnone
        rw [List.find?_eq_none] at hnone
        exact hnone d2 (List.mem_reverse.mpr hd2m) (by simp [hd2e])
      cases hrf : (deps.filter (fun d => !(d.ImportPath = ""))).reverse.find?
          (fun d2 => decide (d2.Rev = rev)) with
      | none => exact absurd hrf hne
      | some d3 =>
        have hfm : m.find? (fun x => decide (x.1 = rev)) =
            some (rev, d3.ImportPath) := by
          rw [hfind rev, hrf]
        have hmem := List.mem_of_find?_eq_some hfm
        exact List.mem_map.mpr ⟨(rev, d3.ImportPath), hmem, rfl⟩
  · intro pp hpp
    obtain ⟨e, hem, hee⟩ := List.mem_map.mp hpp
    have hfe := find?_key_of_mem hem hmnd
    rw [hfind e.1] at hfe
    cases hrf : (deps.filter (fun d => !(d.ImportPath = ""))).reverse.find?
        (fun d2 => decide (d2.Rev = e.1)) with
    | none =>
      rw [hrf] at hfe
      simp at hfe
    | some d3 =>
      rw [hrf] at hfe
      simp at hfe
      have hv : pp.version = e.1 := by rw [← hee]
      refine ⟨d3, ?_, ?_⟩
      · rw [hv]
        exact hrf
      · have hm2 : pp.meta = f e.2 := by rw [← hee]
        have h2 : d3.ImportPath = e.2 := congrArg Prod.snd hfe
        rw [hm2, h2]

/-- Closed instance of C6: two records at `r1` collapse to one pinned
package resolved from the later import path `a/y`, one record at `r2`
stays. -/
theorem claim_C6_witness :
    parseGodeps (fun ip => .ok ⟨ip, "https://" ++ ip, "git"⟩)
        [Dep.mk "a/x" "r1" "", Dep.mk "a/y" "r1" "", Dep.mk "b/z" "r2" ""] =
      .ok [⟨⟨"a/y", "https://a/y", "git"⟩, "r1"⟩,
           ⟨⟨"b/z", "https://b/z", "git"⟩, "r2"⟩] := by
  obtain ⟨pkgs, hok, hnd, hiff, hrep⟩ :=
    claim_C6 (fun ip => (⟨ip, "https://" ++ ip, "git"⟩ : PkgMeta))
      [Dep.mk "a/x" "r1" "", Dep.mk "a/y" "r1" "", Dep.mk "b/z" "r2" ""]
      (by decide)
  have hlit : (Except.ok pkgs : Except String (List pinnedPackage)) =
      .ok [⟨⟨"a/y", "https://a/y", "git"⟩, "r1"⟩,
           ⟨⟨"b/z", "https://b/z", "git"⟩, "r2"⟩] := by
    rw [← hok]
    rfl
  rw [hok, hlit]

/-- C7: when the first working-copy update to the target revision fails,
the engine pulls upstream changes (Update) and retries the revision update
exactly once; when the retry also fails, the whole operation fails with an
error whose message contains the target revision, exactly two
UpdateVersion calls and one Update were made, and nothing further was
attempted (no copy). -/
theorem claim_C7 (r : RepoOps) (version : String) (e1 e2 : String)
    (hv : version ≠ "")
    (hclone : r.checkLocal = true ∨ r.getResult = .ok ())
    (huv1 : r.updateVersionFirst = .error e1)
    (hupd : r.updateResult = .ok ())
    (huv2 : r.updateVersionRetry = .error e2) :
    (goGet r version).1 =
      .error ("updating repo to revision " ++ version ++ ": " ++ e2) ∧
    (∃ a b, "updating repo to revision " ++ version ++ ": " ++ e2 =
      a ++ version ++ b) ∧
    (goGet r version).2.count RepoOp.opUpdateVersion = 2 ∧
    (goGet r version).2.count RepoOp.opUpdate = 1 ∧
    (goGet r version).2.count RepoOp.opCopy = 0 := by
  have hupdate : ∀ cloneOps, goGetUpdate r version cloneOps =
      (.error ("updating repo to revision " ++ version ++ ": " ++ e2),
       cloneOps ++ [.opUpdateVersion, .opUpdate, .opUpdateVersion]) := by
    intro cloneOps
    unfold goGetUpdate
    rw [huv1, hupd, huv2]
  have hgo : goGet r version =
      (.error ("updating repo to revision " ++ version ++ ": " ++ e2),
       (if r.checkLocal then ([] : List RepoOp) else [RepoOp.opGet]) ++
         [.opUpdateVersion, .opUpdate, .opUpdateVersion]) := by
    unfold goGet
    rw [if_neg hv]
    rcases hcl : r.checkLocal with _ | _
    · simp only [if_neg (by simp : ¬(false = true))]
      rcases hclone with hc | hc
      · rw [hcl] at hc
        cases hc
      · rw [hc]
        exact hupdate [RepoOp.opGet]
    · simp only [if_pos rfl]
      exact hupdate []
  rw [hgo]
  refine ⟨rfl, ⟨"updating repo to revision ", ": " ++ e2,
    by rw [String.append_assoc]⟩, ?_, ?_, ?_⟩
  · cases r.checkLocal <;> rfl
  · cases r.checkLocal <;> rfl
  · cases r.checkLocal <;> rfl

/-- Closed instance of C7: first update fails, pull succeeds, retry fails:
the result names the revision and exactly two UpdateVersion calls plus one
Update are logged, with no copy. -/
theorem claim_C7_witness :
    (goGet ⟨true, .ok (), .error "unknown revision", .ok (),
        .error "still unknown", .ok ()⟩ "deadbeef").1 =
      .error "updating repo to revision deadbeef: still unknown" ∧
    (goGet ⟨true, .ok (), .error "unknown revision", .ok (),
        .error "still unknown", .ok ()⟩ "deadbeef").2.count
        RepoOp.opUpdateVersion = 2 :=
  ⟨by
    have h := (claim_C7 ⟨true, .ok (), .error "unknown revision", .ok (),
      .error "still unknown", .ok ()⟩ "deadbeef" "unknown revision"
      "still unknown" (by decide) (Or.inl rfl) rfl rfl rfl).1
    exact h,
   by
    have h := (claim_C7 ⟨true, .ok (), .error "unknown revision", .ok (),
      .error "still unknown", .ok ()⟩ "deadbeef" "unknown revision"
      "still unknown" (by decide) (Or.inl rfl) rfl rfl rfl).2.2.1
    exact h⟩

example : importMeta "github.com/spf13/cobra" =
    some ⟨"github.com/spf13/cobra", "https://github.com/spf13/cobra", "git"⟩ := by
  decide

example : importMeta "github.com/miekg/dns/dnsutil" =
    some ⟨"github.com/miekg/dns", "https://github.com/miekg/dns", "git"⟩ := by
  decide

example : importMeta "bitbucket.org/bertimus9/systemstat" =
    some ⟨"bitbucket.org/bertimus9/systemstat",
      "https://bitbucket.org/bertimus9/systemstat", ""⟩ := by decide

example : importMeta "example.org/repo.git/sub" =
    some ⟨"example.org/repo.git", "https://example.org/repo.git", ""⟩ := by
  decide

example : importMeta "golang.org/x/net/context" = none := by decide

theorem parseImportMeta_skip (u : XmlToken) (l : List XmlToken)
    (ending : XmlEnding) (hq : qualMeta u = none)
    (ht : isTerminator u = false) :
    parseImportMeta (u :: l) ending = parseImportMeta l ending := by
  cases u with
  | startElem n attrs =>
    simp only [isTerminator] at ht
    simp only [qualMeta] at hq
    simp only [parseImportMeta]
    rw [if_neg (by simp [ht])]
    by_cases hm : strEqualFold n "meta" = true
    · rw [if_pos hm]
      rw [if_pos hm] at hq
      by_cases hn : attrValue attrs "name" = "go-import"
      · rw [if_pos hn]
        rw [if_pos hn] at hq
        cases hf : fields (attrValue attrs "content") with
        | nil => rfl
        | cons f0 fs =>
          cases fs with
          | nil => rfl
          | cons f1 fs2 =>
            cases fs2 with
            | nil => rfl
            | cons f2 fs3 =>
              cases fs3 with
              | nil =>
                rw [hf] at hq
                simp at hq
              | cons f3 fs4 => rfl
      · rw [if_neg hn]
    · rw [if_neg hm]
  | endElem n =>
    simp only [isTerminator] at ht
    simp only [parseImportMeta]
    rw [if_neg (by simp [ht])]
  | other => rfl

theorem parseImportMeta_hit (t : XmlToken) (rest : List XmlToken)
    (ending : XmlEnding) (m : PkgMeta) (hq : qualMeta t = some m) :
    parseImportMeta (t :: rest) ending = .ok m := by
  cases t with
  | startElem n attrs =>
    simp only [qualMeta] at hq
    by_cases hm : strEqualFold n "meta" = true
    · rw [if_pos hm] at hq
      by_cases hn : attrValue attrs "name" = "go-import"
      · rw [if_pos hn] at hq
        have hbody : strEqualFold n "body" = false := by
          cases hb : strEqualFold n "body"
          · rfl
          · have h1 : n.data.map lowerChar = "meta".data.map lowerChar :=
              of_decide_eq_true hm
            have h2 : n.data.map lowerChar = "body".data.map lowerChar :=
              of_decide_eq_true hb
            rw [h1] at h2
            simp at h2
            exact absurd h2.1 (by decide)
        simp only [parseImportMeta]
        rw [if_neg (by simp [hbody]), if_pos hm, if_pos hn]
        cases hf : fields (attrValue attrs "content") with
        | nil => rw [hf] at hq; simp at hq
        | cons f0 fs =>
          cases fs with
          | nil => rw [hf] at hq; simp at hq
          | cons f1 fs2 =>
            cases fs2 with
            | nil => rw [hf] at hq; simp at hq
            | cons f2 fs3 =>
              cases fs3 with
              | nil =>
                rw [hf] at hq
                simp at hq
                rw [← hq]
              | cons f3 fs4 => rw [hf] at hq; simp at hq
      · rw [if_neg hn] at hq
        cases hq
    · rw [if_neg hm] at hq
      cases hq
  | endElem n => cases hq
  | other => cases hq

theorem parseImportMeta_term (t : XmlToken) (rest : List XmlToken)
    (ending : XmlEnding) (ht : isTerminator t = true) :
    parseImportMeta (t :: rest) ending = .error .noMeta := by
  cases t with
  | startElem n attrs =>
    simp only [isTerminator] at ht
    simp only [parseImportMeta]
    rw [if_pos ht]
  | endElem n =>
    simp only [isTerminator] at ht
    simp only [parseImportMeta]
    rw [if_pos ht]
  | other => cases ht

/-- C4: discovery-page parsing returns, from the first qualifying meta
element (name equal to the `go-import` marker, content of exactly three
whitespace-separated fields), the metadata `{Root: f0, VCS: f1, Remote:
f2}` and stops there — tokens after it are never examined; and when a
`body` start element, a `head` end element, or the end of input is reached
before any qualifying element, it fails with the no-metadata error. -/
theorem claim_C4 (pre rest : List XmlToken) (t : XmlToken) (m : PkgMeta)
    (ending : XmlEnding)
    (hpre : ∀ u ∈ pre, qualMeta u = none ∧ isTerminator u = false) :
    (qualMeta t = some m →
      parseImportMeta (pre ++ t :: rest) ending = .ok m) ∧
    parseImportMeta pre .eof = .error .noMeta ∧
    (isTerminator t = true →
      parseImportMeta (pre ++ t :: rest) ending = .error .noMeta) := by
  induction pre with
  | nil =>
    refine ⟨?_, rfl, ?_⟩
    · intro hq
      exact parseImportMeta_hit t rest ending m hq
    · intro ht
      exact parseImportMeta_term t rest ending ht
  | cons u pre ih =>
    obtain ⟨hqu, htu⟩ := hpre u (by simp)
    have ih2 := ih (fun x hx => hpre x (by simp [hx]))
    refine ⟨?_, ?_, ?_⟩
    · intro hq
      rw [List.cons_append, parseImportMeta_skip u _ ending hqu htu]
      exact ih2.1 hq
    · rw [parseImportMeta_skip u _ .eof hqu htu]
      exact ih2.2.1
    · intro ht
      rw [List.cons_append, parseImportMeta_skip u _ ending hqu htu]
      exact ih2.2.2 ht

/-- Closed instance of C4, following the discovery pages in the
repository tests: the go-import meta for go4.org is returned as soon as
it is found, later tokens unread; a page whose head closes first fails
with the no-metadata error, as does plain end of input. -/
theorem claim_C4_witness :
    parseImportMeta
      ([XmlToken.other,
        XmlToken.startElem "html" [],
        XmlToken.startElem "head" [],
        XmlToken.startElem "meta"
          [("http-equiv", "Content-Type"), ("content", "text/html")],
        XmlToken.startElem "meta"
          [("name", "go-source"), ("content", "go4.org two")]] ++
       XmlToken.startElem "meta"
         [("name", "go-import"),
          ("content", "go4.org git https://github.com/camlistore/go4")] ::
       [XmlToken.endElem "head", XmlToken.startElem "body" []])
      XmlEnding.eof =
      .ok ⟨"go4.org", "https://github.com/camlistore/go4", "git"⟩ ∧
    parseImportMeta
      ([XmlToken.startElem "html" [], XmlToken.startElem "head" []] ++
       XmlToken.endElem "HEAD" :: [XmlToken.startElem "meta"
         [("name", "go-import"), ("content", "a b c")]])
      XmlEnding.eof = .error .noMeta ∧
    parseImportMeta [XmlToken.startElem "html" [],
      XmlToken.startElem "head" []] XmlEnding.eof = .error .noMeta :=
  ⟨(claim_C4 [XmlToken.other,
      XmlToken.startElem "html" [],
      XmlToken.startElem "head" [],
      XmlToken.startElem "meta"
        [("http-equiv", "Content-Type"), ("content", "text/html")],
      XmlToken.startElem "meta"
        [("name", "go-source"), ("content", "go4.org two")]]
     [XmlToken.endElem "head", XmlToken.startElem "body" []]
     (XmlToken.startElem "meta"
       [("name", "go-import"),
        ("content", "go4.org git https://github.com/camlistore/go4")])
     ⟨"go4.org", "https://github.com/camlistore/go4", "git"⟩
     XmlEnding.eof (by decide)).1 (by decide),
   (claim_C4 [XmlToken.startElem "html" [], XmlToken.startElem "head" []]
     [XmlToken.startElem "meta" [("name", "go-import"), ("content", "a b c")]]
     (XmlToken.endElem "HEAD")
     ⟨"a", "c", "b"⟩ XmlEnding.eof (by decide)).2.2 (by decide),
   (claim_C4 [XmlToken.startElem "html" [], XmlToken.startElem "head" []]
     [] XmlToken.other ⟨"a", "c", "b"⟩ XmlEnding.eof (by decide)).2.1⟩

/-- C1 as stated is false: `github.com/org/repo` is matched by the first
hosting-provider template (importMeta yields the template-derived meta),
yet the actual resolution path — the package-level `fetchImportMeta`,
which `resolver.fetchImportMeta` invokes for every fresh query — performs
a network request for it; the static matcher is not consulted during
resolution, and with the network unavailable the resolution fails instead
of returning the template result. -/
theorem claim_C1_counterexample :
    importMeta "github.com/org/repo" =
      some ⟨"github.com/org/repo", "https://github.com/org/repo", "git"⟩ ∧
    (fetchImportMeta (fun _ => none) "github.com/org/repo").2 =
      ["https://github.com/org/repo?go-get=1"] ∧
    (fetchImportMeta (fun _ => none) "github.com/org/repo").1 =
      .error "getting go-get url https://github.com/org/repo?go-get=1" := by
  refine ⟨by decide, by decide, rfl⟩

/-- C1 (amended): an actual resolution always consists of exactly one
discovery-page HTTPS request — for every module path and every network
behaviour — and the static hosting-provider match is not part of that
path, so even template-matched module paths incur the network fetch. -/
theorem claim_C1 (http : String → Option HttpResp) (pkg : String) :
    (fetchImportMeta http pkg).2 = [goGetURL pkg] := by
  unfold fetchImportMeta
  split
  · rfl
  · split
    · rfl
    · split <;> rfl

/-- C3 as stated is false: the discovery-page parse takes `Root` verbatim
from the page content and never checks it against the module path being
resolved — a page declaring root `other.org` parses successfully during a
fetch of `example.com/foo`, although `other.org` is not a prefix of that
path. -/
theorem claim_C3_counterexample :
    parseImportMeta
      [XmlToken.startElem "meta"
        [("name", "go-import"), ("content", "other.org git https://x")]]
      XmlEnding.eof = .ok ⟨"other.org", "https://x", "git"⟩ ∧
    isPfxOf "other.org" "example.com/foo" = false ∧
    (fetchImportMeta
      (fun _ => some ⟨200, "OK",
        [XmlToken.startElem "meta"
          [("name", "go-import"), ("content", "other.org git https://x")]],
        XmlEnding.eof⟩) "example.com/foo").1 =
      .ok ⟨"other.org", "https://x", "git"⟩ := by
  refine ⟨rfl, by decide, rfl⟩

/-- C3 (amended): every PackageMeta produced by the static pattern match
has a Root that is a raw string prefix of the matched module path (the
anchored leading capture group); a discovery-parse result instead carries
the page-declared triple verbatim — its fields are those of the first
qualifying meta element, with no check against the module path. -/
theorem claim_C3 (pkg : String) (meta : PkgMeta) :
    (importMeta pkg = some meta → isPfxOf meta.Root pkg = true) ∧
    (∀ tokens ending, parseImportMeta tokens ending = .ok meta →
      ∃ n attrs, XmlToken.startElem n attrs ∈ tokens ∧
        qualMeta (XmlToken.startElem n attrs) = some meta) := by
  constructor
  · have haux : ∀ L meta2, importMetaAux pkg L = some meta2 →
        isPfxOf meta2.Root pkg = true := by
      intro L
      induction L with
      | nil =>
        intro meta2 h
        cases h
      | cons e L ih =>
        obtain ⟨mf, vcs⟩ := e
        intro meta2 h
        simp only [importMetaAux] at h
        split at h
        · rename_i n hm
          split at h
          · cases h
            unfold isPfxOf
            exact decide_eq_true (List.take_prefix n pkg.data)
          · exact ih meta2 h
        · exact ih meta2 h
    intro h
    exact haux vcsList meta h
  · intro tokens
    induction tokens with
    | nil =>
      intro ending h
      cases ending <;> cases h
    | cons t ts ih =>
      intro ending h
      cases ht2 : isTerminator t with
      | true =>
        rw [parseImportMeta_term t ts ending ht2] at h
        cases h
      | false =>
        cases hq : qualMeta t with
        | some m2 =>
          rw [parseImportMeta_hit t ts ending m2 hq] at h
          have hmeq : m2 = meta := by injection h
          cases t with
          | startElem n attrs => exact ⟨n, attrs, by simp, hmeq ▸ hq⟩
          | endElem n => simp [qualMeta] at hq
          | other => simp [qualMeta] at hq
        | none =>
          rw [parseImportMeta_skip t ts ending hq ht2] at h
          obtain ⟨n, attrs, hmem, hqual⟩ := ih ending h
          exact ⟨n, attrs, by simp [hmem], hqual⟩

/-- Closed instance of C3 (amended), on the sub-package path of the
repository tests: the statically matched root `github.com/miekg/dns` is a
prefix of `github.com/miekg/dns/dnsutil`. -/
theorem claim_C3_witness :
    isPfxOf "github.com/miekg/dns" "github.com/miekg/dns/dnsutil" = true :=
  (claim_C3 "github.com/miekg/dns/dnsutil"
    ⟨"github.com/miekg/dns", "https://github.com/miekg/dns", "git"⟩).1
    (by decide)

example : ignoreFile "asm_darwin_386.s" = false := by decide

example : ignoreFile "gccgo_c.c" = false := by decide

example : ignoreFile "errors.go" = false := by decide

example : ignoreFile "errors.py" = true := by decide

example : ignoreFile "errors_test.go" = true := by decide

example : ignoreFile "LICENSE" = false := by decide

example : ignoreFile "LICENSE.txt" = false := by decide

example : ignoreFile "license_test.go" = true := by decide

example : includeFileClaim "license_test.go" = true := by decide

end Got
